import Mathlib

/-!
Verification of the FOMO_embedding text-chunking / embedding pipeline.

We shallowly embed the Python code of `src/vector/text_splitter.py` and the
embedding-orchestration slice of `src/vector/text_embedder.py` in Lean.
Python strings are modelled as `List Char` (a Python `str` is a sequence of
code points, so `List Char` is the faithful representation; Lean's `String`
byte positions would not be).

Recursive scanning functions (regex substitution loops, `str.split`, the
recursive splitter) are implemented with an explicit fuel argument that is
structurally consumed, together with a fuel-free wrapper supplying provably
sufficient fuel.  This keeps every definition kernel-computable (`decide`
works on concrete inputs) while the derived equation lemmas let us reason
exactly as with the direct recursion.
-/

/-- A Python string: a sequence of code points. -/
abbrev PyStr := List Char

namespace PySem

/-- The characters Python treats as whitespace (`str.isspace`, and the set
matched by `\s` in a `re` pattern on `str`): ASCII whitespace, the ASCII
separator controls, NEL, NBSP and the Unicode space characters. -/
def isPySpace (c : Char) : Bool :=
  c = ' ' ∨ c = '\t' ∨ c = '\n' ∨ c = '\r' ∨ c = '\x0b' ∨ c = '\x0c' ∨
  c = '\x1c' ∨ c = '\x1d' ∨ c = '\x1e' ∨ c = '\x1f' ∨ c = '\x85' ∨ c = '\xa0' ∨
  c = ' ' ∨ c = ' ' ∨ c = ' ' ∨ c = ' ' ∨ c = ' ' ∨
  c = ' ' ∨ c = ' ' ∨ c = ' ' ∨ c = ' ' ∨ c = ' ' ∨
  c = ' ' ∨ c = ' ' ∨ c = ' ' ∨ c = ' ' ∨ c = ' ' ∨
  c = ' ' ∨ c = '　'

/-- Python `str.lstrip()`. -/
def pyLStrip (s : PyStr) : PyStr := s.dropWhile isPySpace

/-- Python `str.rstrip()`. -/
def pyRStrip (s : PyStr) : PyStr := (s.reverse.dropWhile isPySpace).reverse

/-- Python `str.strip()`. -/
def pyStrip (s : PyStr) : PyStr := pyRStrip (pyLStrip s)

/-- Index of the first occurrence of `needle` in `haystack`
(the index Python's `str.find` returns when the needle occurs). -/
def findSub (needle : PyStr) : PyStr → Option Nat
  | [] => if needle = [] then some 0 else none
  | c :: rest =>
    if needle.isPrefixOf (c :: rest) then some 0
    else (findSub needle rest).map (· + 1)

/-- Python `str.find`: first occurrence index, `-1` when absent. -/
def pyFind (needle haystack : PyStr) : Int :=
  match findSub needle haystack with
  | some i => (i : Int)
  | none => -1

/-- Python slice `s[i:i+k]` for non-negative `i`, `k`. -/
def pySliceLen (s : PyStr) (i k : Nat) : PyStr := (s.drop i).take k

/-- Python slice `s[-k:]` for `k > 0`: the last `min k (length s)` characters. -/
def pyTakeRight (k : Nat) (s : PyStr) : PyStr := s.drop (s.length - k)

/-- Fueled core of Python `str.split(sep)` for a non-empty `sep`. -/
def pySplitF (sep : PyStr) : Nat → PyStr → List PyStr
  | 0, s => [s]
  | fuel + 1, s =>
    (findSub sep s).elim [s]
      (fun i => s.take i :: pySplitF sep fuel (s.drop (i + sep.length)))

/-- Python `str.split(sep)` for a non-empty separator `sep` (the code never
splits on the empty separator: it is handled by the character fallback). -/
def pySplit (sep s : PyStr) : List PyStr := pySplitF sep (s.length + 1) s

/-! ### `re.sub(r'<[^>]+>', '', text)` — HTML-tag removal

At a `<`, the pattern matches iff the next character exists and is not `>`
and a `>` occurs later; the (greedy `[^>]+` followed by `>`) match then ends
at the first `>` after the `<`, and scanning resumes after it. -/

/-- Does the tag pattern match at a `<` whose remaining input is `rest`? -/
def tagMatch : PyStr → Bool
  | [] => false
  | d :: t => decide (d ≠ '>') && decide ('>' ∈ t)

/-- The input remaining after the first `'>'` of `rest`. -/
def tagSkip (rest : PyStr) : PyStr := (rest.dropWhile (fun d => !(d = '>'))).drop 1

/-- Fueled scan of `re.sub(r'<[^>]+>', '', s)`. -/
def stripTagsF : Nat → PyStr → PyStr
  | 0, s => s
  | _ + 1, [] => []
  | fuel + 1, c :: rest =>
    if c = '<' ∧ tagMatch rest then stripTagsF fuel (tagSkip rest)
    else c :: stripTagsF fuel rest

/-- `re.sub(r'<[^>]+>', '', s)`. -/
def stripTags (s : PyStr) : PyStr := stripTagsF (s.length + 1) s

/-! ### `re.sub(r'\r\n|\r', '\n', text)` — newline unification. -/

def normNewlines : PyStr → PyStr
  | [] => []
  | [c] => if c = '\r' then ['\n'] else [c]
  | c :: d :: rest =>
    if c = '\r' then
      if d = '\n' then '\n' :: normNewlines rest
      else '\n' :: normNewlines (d :: rest)
    else c :: normNewlines (d :: rest)

/-! ### `re.sub(r'\n\s*\n', '\n\n', text)` — blank-line collapsing

At a `\n` whose following maximal whitespace prefix `w` contains another
`\n`, the greedy match ends at the last `\n` inside `w`; it is replaced by
`"\n\n"` and scanning resumes after that last `\n` (i.e. at the trailing
non-`\n` whitespace of `w` followed by the rest). -/

/-- The trailing segment of `w` after its last `'\n'`. -/
def afterLastNl (w : PyStr) : PyStr := (w.reverse.takeWhile (fun d => !(d = '\n'))).reverse

/-- Fueled scan of `re.sub(r'\n\s*\n', '\n\n', s)`. -/
def collapseBlankF : Nat → PyStr → PyStr
  | 0, s => s
  | _ + 1, [] => []
  | fuel + 1, c :: rest =>
    let w := rest.takeWhile isPySpace
    if c = '\n' ∧ '\n' ∈ w then
      '\n' :: '\n' :: collapseBlankF fuel (afterLastNl w ++ rest.drop w.length)
    else c :: collapseBlankF fuel rest

/-- `re.sub(r'\n\s*\n', '\n\n', s)`. -/
def collapseBlank (s : PyStr) : PyStr := collapseBlankF (s.length + 1) s

/-! ### Per-line trimming and whitespace collapsing -/

/-- `text.split('\n')`. -/
def splitLines (s : PyStr) : List PyStr := pySplit ['\n'] s

/-- `'\n'.join(lines)`. -/
def joinLines : List PyStr → PyStr
  | [] => []
  | [l] => l
  | l :: ls => l ++ '\n' :: joinLines ls

/-- `'\n'.join(line.strip() for line in text.split('\n'))`. -/
def stripLines (s : PyStr) : PyStr := joinLines ((splitLines s).map pyStrip)

/-- `re.sub(r'\s+', ' ', s)`: every maximal whitespace run becomes one space.
`inRun` records whether the previous character was whitespace. -/
def collapseWsGo (inRun : Bool) : PyStr → PyStr
  | [] => []
  | c :: rest =>
    if isPySpace c then
      if inRun then collapseWsGo true rest else ' ' :: collapseWsGo true rest
    else c :: collapseWsGo false rest

/-- `re.sub(r'\s+', ' ', s)`. -/
def collapseWs (s : PyStr) : PyStr := collapseWsGo false s

/-- The control characters removed by the embedder's cleaning step:
`[\x00-\x08\x0b\x0c\x0e-\x1f\x7f-\x9f]`. -/
def isCtrl (c : Char) : Bool :=
  c.toNat ≤ 0x08 ∨ c = '\x0b' ∨ c = '\x0c' ∨
  (0x0e ≤ c.toNat ∧ c.toNat ≤ 0x1f) ∨ (0x7f ≤ c.toNat ∧ c.toNat ≤ 0x9f)

/-- `re.sub(r'[\x00-\x08\x0b\x0c\x0e-\x1f\x7f-\x9f]', '', s)`. -/
def removeCtrl (s : PyStr) : PyStr := s.filter (fun c => !(isCtrl c))

/-! ### Predicates and relations used to analyse the cleaning pipelines -/

/-- `t` is obtained from `s` by deleting whitespace characters and replacing
whitespace characters by whitespace characters (never touching, reordering or
inserting around non-whitespace characters).  Every stage of the cleaning
pipelines after tag removal is such an edit. -/
inductive WsEdit : PyStr → PyStr → Prop
  | nil : WsEdit [] []
  | keep (c : Char) {s t : PyStr} : WsEdit s t → WsEdit (c :: s) (c :: t)
  | del {c : Char} {s t : PyStr} : isPySpace c = true → WsEdit s t →
      WsEdit (c :: s) t
  | subst {c d : Char} {s t : PyStr} : isPySpace c = true → isPySpace d = true →
      WsEdit s t → WsEdit (c :: s) (d :: t)

/-- No `<` in `s` can start a tag match: each `<` is either immediately
followed by `>` or has no `>` anywhere after it. -/
def tagOk : PyStr → Bool
  | [] => true
  | c :: rest =>
    decide (c = '<' → (rest.head? = some '>' ∨ '>' ∉ rest)) && tagOk rest

/-- The fixed points of `collapseBlank`: after every `\n`, the maximal
whitespace prefix `w` of the remainder either contains no `\n`, or starts
with a `\n` and contains no further one (so the `\n\s*\n` match, if any, is
already exactly `\n\n`). -/
def nlOk : PyStr → Bool
  | [] => true
  | c :: rest =>
    (decide (c = '\n' →
      ('\n' ∉ rest.takeWhile isPySpace ∨
        ((rest.takeWhile isPySpace).head? = some '\n' ∧
          '\n' ∉ (rest.takeWhile isPySpace).drop 1)))) && nlOk rest

/-- Every whitespace character of `s` is a single `' '` followed by a
non-whitespace character or the end (the fixed points of `collapseWs`). -/
def wsOk : PyStr → Bool
  | [] => true
  | c :: rest =>
    (decide (isPySpace c = true →
      (c = ' ' ∧ rest.head?.all (fun d => !isPySpace d) = true))) && wsOk rest

/-- Remove the trailing empty lines of a line list. -/
def trimEnd : List PyStr → List PyStr
  | [] => []
  | x :: rest =>
    if trimEnd rest = [] then (if x = [] then [] else [x])
    else x :: trimEnd rest

end PySem

open PySem

/-- The splitter's configuration, as stored by `TextSplitter.__init__`
(which performs no validation of its arguments). -/
structure TextSplitter where
  chunk_size : Nat
  chunk_overlap : Nat
  separators : List PyStr
deriving DecidableEq, Repr

/-- The default separator priority list of `TextSplitter.__init__`. -/
def defaultSeparators : List PyStr :=
  [['\n', '\n'], ['\n'], ['。'], ['！'], ['？'], ['；'], ['，'], [' '], []]

namespace TextSplitter

/-- `TextSplitter._clean_text`: strip HTML tags, unify newlines, collapse
blank lines, trim each line, trim the whole text. -/
def clean_text (text : PyStr) : PyStr :=
  pyStrip (stripLines (collapseBlank (normNewlines (stripTags text))))

/-- `TextSplitter.__init__(chunk_size, chunk_overlap, separators)`: the
constructor stores its arguments unchanged (defaulting the separator list)
and performs no validation whatsoever. -/
def init (size overlap : Nat) (seps : Option (List PyStr)) : TextSplitter :=
  ⟨size, overlap, seps.getD defaultSeparators⟩

/-- Fueled fixed-stride slicing: `text[i:i+size]` for
`i in range(0, len(text), stride)`, faithful for `stride ≥ 1`. -/
def charWindowsF (stride size : Nat) : Nat → PyStr → List PyStr
  | 0, _ => []
  | _ + 1, [] => []
  | fuel + 1, c :: rest => ((c :: rest).take size) :: charWindowsF stride size fuel ((c :: rest).drop stride)

def charWindows (stride size : Nat) (s : PyStr) : List PyStr :=
  charWindowsF stride size (s.length + 1) s

/-- The `separator == ""` branch of `_split_text_recursive`: character-level
slicing with stride `chunk_size - chunk_overlap`.  (Faithful to the Python
`range` loop when the stride is positive, i.e. `chunk_overlap < chunk_size`;
`charFallbackPy` below models the general Python semantics and is proved to
agree on that domain.) -/
def charFallback (cfg : TextSplitter) (text : PyStr) : List PyStr :=
  charWindows (cfg.chunk_size - cfg.chunk_overlap) cfg.chunk_size text

/-- The greedy re-packing loop of `_split_text_recursive`: accumulate splits
(re-joined with `sep`) into `current` while the accumulated length stays
within `size`; on overflow flush `current`, recursively splitting any single
split that alone exceeds `size` via `recur`. -/
def packGo (size : Nat) (sep : PyStr) (recur : PyStr → List PyStr) :
    List PyStr → PyStr → List PyStr
  | [], current => if current = [] then [] else [current]
  | sp :: rest, current =>
    let test := if current = [] then sp else current ++ sep ++ sp
    if test.length ≤ size then packGo size sep recur rest test
    else
      (if current = [] then [] else [current]) ++
        (if size < sp.length then recur sp ++ packGo size sep recur rest []
         else packGo size sep recur rest sp)

/-- `prev_chunk[-k:] if len(prev_chunk) > k else prev_chunk`. -/
def overlapTail (k : Nat) (prev : PyStr) : PyStr :=
  if k < prev.length then pyTakeRight k prev else prev

def addOverlapGo (k : Nat) : PyStr → List PyStr → List PyStr
  | _, [] => []
  | prev, c :: rest => (overlapTail k prev ++ c) :: addOverlapGo k c rest

/-- `TextSplitter._add_overlap`: each chunk after the first is prefixed with
the trailing `k` characters (or all) of the *input* list's previous chunk. -/
def add_overlap (k : Nat) : List PyStr → List PyStr
  | [] => []
  | [c] => [c]
  | c₁ :: c₂ :: rest => c₁ :: addOverlapGo k c₁ (c₂ :: rest)

/-- Measure justifying the recursion of `_split_text_recursive` over the
separator list: every recursive call strictly decreases it. -/
def sepsMeasure (seps : List PyStr) : Nat :=
  2 * seps.length + (if seps.headD [] = [] then 0 else 1)

/-- Fueled `TextSplitter._split_text_recursive`.  `applyOv = true` is the
source algorithm; `applyOv = false` disables the `_add_overlap` step at every
level, yielding the pre-overlap segments the spec speaks about. -/
def splitRecF (cfg : TextSplitter) (applyOv : Bool) :
    Nat → List PyStr → PyStr → List PyStr
  | 0, _, text => [text]
  | fuel + 1, seps, text =>
    if text.length ≤ cfg.chunk_size then [text]
    else
      let separator := seps.headD []
      if separator = [] then charFallback cfg text
      else
        let splits := pySplit separator text
        let nextSeps := if 1 < seps.length then seps.tail else [[]]
        if splits.length = 1 then splitRecF cfg applyOv fuel nextSeps text
        else
          let chunks := packGo cfg.chunk_size separator
            (fun sp => splitRecF cfg applyOv fuel nextSeps sp) splits []
          if applyOv ∧ 0 < cfg.chunk_overlap ∧ 1 < chunks.length then
            add_overlap cfg.chunk_overlap chunks
          else chunks

/-- `TextSplitter._split_text_recursive` (with `applyOv` as above). -/
def split_text_recursive (cfg : TextSplitter) (applyOv : Bool)
    (seps : List PyStr) (text : PyStr) : List PyStr :=
  splitRecF cfg applyOv (sepsMeasure seps + 1) seps text

/-! ### Provenance: character→line map and record assembly -/

/-- `TextSplitter._build_char_line_map`, flattened: the dict has keys
`0,…,N-1` and value `line_num` repeated `len(line)+1` times per line. -/
def char_line_map (lines : List PyStr) : List Nat :=
  (lines.enum.map (fun p => List.replicate (p.2.length + 1) (p.1 + 1))).flatten

/-- `TextSplitter._get_line_number`: the value at the greatest key `≤ pos`,
or `1` when no key qualifies.  Since the keys are exactly `0,…,N-1`, that
key is `min pos (N-1)` for `pos ≥ 0`. -/
def get_line_number (m : List Nat) (pos : Int) : Nat :=
  if pos < 0 then 1
  else if m = [] then 1
  else m.getD (min pos.toNat (m.length - 1)) 1

/-- One output record of `TextSplitter.split_text`. -/
structure Chunk where
  text : PyStr
  chunk_id : Nat
  char_start : Int
  char_end : Int
  line_start : Nat
  line_end : Nat
  length : Nat
deriving DecidableEq, Repr

/-- The body of the result-assembly loop of `split_text` for the chunk at
(pre-filter) position `i`: whitespace-only chunks are skipped, offsets are
found via `full_text.find(chunk)` (searching from the beginning), and
`char_end = char_start + len(chunk) - 1`. -/
def mkRecord (full : PyStr) (m : List Nat) (i : Nat) (chunk : PyStr) : Option Chunk :=
  if pyStrip chunk = [] then none
  else
    let sp := pyFind chunk full
    let ep := sp + chunk.length - 1
    some ⟨pyStrip chunk, i, sp, ep, get_line_number m sp, get_line_number m ep,
      (pyStrip chunk).length⟩

/-- `TextSplitter.split_text`. -/
def split_text (cfg : TextSplitter) (text : PyStr) : List Chunk :=
  if text = [] then []
  else
    let t := clean_text text
    let lines := splitLines t
    let m := char_line_map lines
    let full := joinLines lines
    let chunks := split_text_recursive cfg true cfg.separators full
    chunks.enum.filterMap (fun p => mkRecord full m p.1 p.2)

end TextSplitter

/-- An embedding vector (the numeric contents are irrelevant to the claims). -/
abbrev Emb := List Int

namespace TextEmbedder

/-- `TextEmbedder._clean_text`: strip HTML tags, collapse whitespace runs to
single spaces, remove control characters, trim. -/
def clean_text (text : PyStr) : PyStr :=
  if text = [] then []
  else pyStrip (removeCtrl (collapseWs (stripTags text)))

/-- Fueled decimal rendering of a natural number (`f"{i}"`). -/
def natToCharsF : Nat → Nat → PyStr
  | 0, _ => []
  | fuel + 1, n =>
    if n < 10 then [Nat.digitChar n]
    else natToCharsF fuel (n / 10) ++ [Nat.digitChar (n % 10)]

def natToChars (n : Nat) : PyStr := natToCharsF (n + 1) n

/-- The chunk ids `f"{document_id}_{chunk_idx}"` the embedder assigns to the
`n` chunks of one document, `chunk_idx` being the dense enumeration index of
the chunk list returned by `split_text`. -/
def chunk_ids (docId : PyStr) (n : Nat) : List PyStr :=
  (List.range n).map (fun i => docId ++ '_' :: natToChars i)

/-- One `try:` body for a batch: embed each text sequentially; the first
failure raises, discarding the partial batch.  `f attempt text` is the
outcome of the remote call for `text` during global attempt `attempt`. -/
def attemptBatch (f : Nat → PyStr → Option Emb) (attempt : Nat) :
    List PyStr → Option (List Emb)
  | [] => some []
  | t :: rest =>
    (f attempt t).bind (fun e => (attemptBatch f attempt rest).map (fun es => e :: es))

/-- The `for attempt in range(retry_attempts)` loop for one batch: stop at the
first fully successful attempt; on a failed attempt that is not the last,
sleep `5 + 2 ** attempt` seconds (the sleeps are logged in the second
component). -/
def batchAttempts (f : Nat → PyStr → Option Emb) (texts : List PyStr) :
    Nat → Nat → Option (List Emb) × List Nat
  | 0, _ => (none, [])
  | remaining + 1, attempt =>
    match attemptBatch f attempt texts with
    | some es => (some es, [])
    | none =>
      if remaining = 0 then (none, [])
      else
        let p := batchAttempts f texts remaining (attempt + 1)
        (p.1, (5 + 2 ^ attempt) :: p.2)

/-- The outer batch loop of `generate_embeddings`: on batch success append its
embeddings and the indices `chunk_idx + i` of its chunks; on final failure
skip the whole batch (advancing `chunk_idx` only when at least one attempt
ran, i.e. `retry ≥ 1`).  Returns (all_embeddings, successful chunk indices,
sleep log). -/
def runBatches (f : Nat → PyStr → Option Emb) (retry : Nat) :
    List (List PyStr) → Nat → List Emb × List Nat × List Nat
  | [], _ => ([], [], [])
  | batch :: rest, offset =>
    let p := batchAttempts f batch retry 0
    match p.1 with
    | some es =>
      let r := runBatches f retry rest (offset + batch.length)
      (es ++ r.1, (List.range batch.length).map (fun i => offset + i) ++ r.2.1, p.2 ++ r.2.2)
    | none =>
      let r := runBatches f retry rest (if retry = 0 then offset else offset + batch.length)
      (r.1, r.2.1, p.2 ++ r.2.2)

/-- Fueled `TextEmbedder._split_into_batches`. -/
def batchesF (bs : Nat) : Nat → List PyStr → List (List PyStr)
  | 0, _ => []
  | _ + 1, [] => []
  | fuel + 1, t :: rest => ((t :: rest).take bs) :: batchesF bs fuel ((t :: rest).drop bs)

/-- `TextEmbedder._split_into_batches` (faithful for `bs ≥ 1`; the code uses
`batch_size = 100` by default). -/
def split_into_batches (items : List PyStr) (bs : Nat) : List (List PyStr) :=
  batchesF bs (items.length + 1) items

/-- The embedding phase of `generate_embeddings`, starting from the list
`texts_to_embed`: split into batches and run the retry loop.  Returns
(all_embeddings, successful chunk indices, sleep log). -/
def embedPhase (f : Nat → PyStr → Option Emb) (retry bs : Nat) (texts : List PyStr) :
    List Emb × List Nat × List Nat :=
  runBatches f retry (split_into_batches texts bs) 0

end TextEmbedder

namespace TextSplitter

/-- Python `range(0, stop, step)` for `stop ≥ 0`: `ValueError` (`none`) when
`step = 0`, empty when `step < 0`, else `0, step, 2*step, …` below `stop`. -/
def pyRange (stop : Nat) (step : Int) : Option (List Int) :=
  if step = 0 then none
  else if step < 0 then some []
  else some ((List.range ((stop + step.toNat - 1) / step.toNat)).map
    (fun k => ((k * step.toNat : Nat) : Int)))

/-- The `separator == ""` branch of `_split_text_recursive` under exact Python
`range` semantics: `for i in range(0, len(text), chunk_size - chunk_overlap)`
with `chunk = text[i:i+chunk_size]`; `none` models the `ValueError` raised
when the stride is zero. -/
def charFallbackPy (cfg : TextSplitter) (text : PyStr) : Option (List PyStr) :=
  (pyRange text.length ((cfg.chunk_size : Int) - (cfg.chunk_overlap : Int))).map
    (fun idxs => idxs.map (fun i => pySliceLen text i.toNat cfg.chunk_size))

end TextSplitter

/-! ## Supporting lemmas -/

namespace PySem

theorem findSub_le {needle haystack : PyStr} {i : Nat}
    (h : findSub needle haystack = some i) : i + needle.length ≤ haystack.length := by
  induction haystack generalizing i with
  | nil =>
    simp only [findSub] at h
    split at h
    · simp_all
    · simp at h
  | cons c rest ih =>
    simp only [findSub] at h
    split at h
    · rename_i hp
      have hle := List.IsPrefix.length_le (List.isPrefixOf_iff_prefix.mp hp)
      simp only [Option.some.injEq] at h
      simp only [List.length_cons] at *
      omega
    · rcases Option.map_eq_some'.mp h with ⟨j, hj, rfl⟩
      have := ih hj
      simp only [List.length_cons]
      omega

theorem pySplitF_succ (sep : PyStr) (n : Nat) (s : PyStr) :
    pySplitF sep (n + 1) s =
      (findSub sep s).elim [s]
        (fun i => s.take i :: pySplitF sep n (s.drop (i + sep.length))) := rfl

theorem pySplitF_adequate (sep : PyStr) (hsep : sep ≠ []) :
    ∀ fuel₁ fuel₂ s, s.length < fuel₁ → s.length < fuel₂ →
      pySplitF sep fuel₁ s = pySplitF sep fuel₂ s := by
  intro fuel₁
  induction fuel₁ using Nat.strong_induction_on with
  | _ fuel₁ ih =>
    intro fuel₂ s h₁ h₂
    match fuel₁, fuel₂, h₁, h₂ with
    | f₁ + 1, f₂ + 1, h₁, h₂ =>
      rw [pySplitF_succ, pySplitF_succ]
      cases hfind : findSub sep s with
      | none => rfl
      | some i =>
        have hlen := findSub_le hfind
        have hone : 1 ≤ sep.length := List.length_pos.mpr hsep
        have hlt : (s.drop (i + sep.length)).length < f₁ := by
          simp only [List.length_drop]; omega
        have hlt₂ : (s.drop (i + sep.length)).length < f₂ := by
          simp only [List.length_drop]; omega
        simp only [Option.elim_some, List.cons.injEq, true_and]
        exact ih f₁ (by omega) f₂ _ hlt hlt₂

/-- One-step unfolding of `pySplit`. -/
theorem pySplit_eq (sep s : PyStr) (hsep : sep ≠ []) :
    pySplit sep s =
      (findSub sep s).elim [s]
        (fun i => s.take i :: pySplit sep (s.drop (i + sep.length))) := by
  conv_lhs => rw [pySplit, pySplitF_succ]
  cases hfind : findSub sep s with
  | none => rfl
  | some i =>
    have hlen := findSub_le hfind
    have hone : 1 ≤ sep.length := List.length_pos.mpr hsep
    simp only [Option.elim_some, List.cons.injEq, true_and]
    rw [pySplit]
    exact pySplitF_adequate sep hsep _ _ _ (by simp only [List.length_drop]; omega)
      (by simp only [List.length_drop]; omega)

theorem tagSkip_length_lt {rest : PyStr} (h : '>' ∈ rest) :
    (tagSkip rest).length < rest.length := by
  induction rest with
  | nil => simp at h
  | cons c t ih =>
    by_cases hc : c = '>'
    · subst hc; simp [tagSkip]
    · have ht : '>' ∈ t := by
        rcases List.mem_cons.mp h with h | h
        · exact absurd h.symm hc
        · exact h
      have hlt := ih ht
      have hskip : tagSkip (c :: t) = tagSkip t := by
        simp [tagSkip, List.dropWhile_cons, hc]
      rw [hskip]
      simp only [List.length_cons]
      omega

theorem tagMatch_mem {rest : PyStr} (h : tagMatch rest = true) : '>' ∈ rest := by
  cases rest with
  | nil => simp [tagMatch] at h
  | cons d t =>
    simp only [tagMatch, Bool.and_eq_true, decide_eq_true_eq] at h
    exact List.mem_cons_of_mem _ h.2

theorem stripTagsF_adequate :
    ∀ fuel₁ fuel₂ s, s.length < fuel₁ → s.length < fuel₂ →
      stripTagsF fuel₁ s = stripTagsF fuel₂ s := by
  intro fuel₁
  induction fuel₁ using Nat.strong_induction_on with
  | _ fuel₁ ih =>
    intro fuel₂ s h₁ h₂
    match fuel₁, fuel₂, h₁, h₂ with
    | f₁ + 1, f₂ + 1, h₁, h₂ =>
      cases s with
      | nil => rfl
      | cons c rest =>
        simp only [stripTagsF]
        split
        · rename_i hm
          have hlt := tagSkip_length_lt (tagMatch_mem hm.2)
          simp only [List.length_cons] at h₁ h₂
          exact ih f₁ (by omega) f₂ _ (by omega) (by omega)
        · simp only [List.length_cons] at h₁ h₂
          rw [ih f₁ (by omega) f₂ rest (by omega) (by omega)]

theorem stripTags_nil : stripTags [] = [] := rfl

theorem stripTags_cons (c : Char) (rest : PyStr) :
    stripTags (c :: rest) =
      if c = '<' ∧ tagMatch rest then stripTags (tagSkip rest)
      else c :: stripTags rest := by
  simp only [stripTags, List.length_cons, stripTagsF]
  split
  · rename_i hm
    have hlt := tagSkip_length_lt (tagMatch_mem hm.2)
    exact stripTagsF_adequate _ _ _ (by omega) (by omega)
  · rw [stripTagsF_adequate (rest.length + 1) (rest.length + 1 + 1) rest (by omega) (by omega)]

theorem takeWhile_not_nl_length_lt {l : PyStr} (h : '\n' ∈ l) :
    (l.takeWhile (fun d => !(d = '\n'))).length < l.length := by
  induction l with
  | nil => simp at h
  | cons c t ih =>
    by_cases hc : c = '\n'
    · subst hc; simp [List.takeWhile_cons]
    · rcases List.mem_cons.mp h with h | h
      · exact absurd h.symm hc
      · have := ih h
        have hcons : List.takeWhile (fun d => !(d = '\n')) (c :: t)
            = c :: t.takeWhile (fun d => !(d = '\n')) := by
          simp [List.takeWhile_cons, hc]
        rw [hcons]
        simp only [List.length_cons]
        omega

theorem afterLastNl_length_lt {w : PyStr} (h : '\n' ∈ w) :
    (afterLastNl w).length < w.length := by
  have hlt := takeWhile_not_nl_length_lt (l := w.reverse) (List.mem_reverse.mpr h)
  simpa [afterLastNl] using hlt

theorem collapseBlank_skip_length {rest : PyStr}
    (h : '\n' ∈ rest.takeWhile isPySpace) :
    (afterLastNl (rest.takeWhile isPySpace) ++ rest.drop (rest.takeWhile isPySpace).length).length
      < rest.length := by
  have h₁ := afterLastNl_length_lt h
  have h₂ : (rest.takeWhile isPySpace).length ≤ rest.length :=
    (List.takeWhile_sublist _).length_le
  simp only [List.length_append, List.length_drop]
  omega

theorem collapseBlankF_adequate :
    ∀ fuel₁ fuel₂ s, s.length < fuel₁ → s.length < fuel₂ →
      collapseBlankF fuel₁ s = collapseBlankF fuel₂ s := by
  intro fuel₁
  induction fuel₁ using Nat.strong_induction_on with
  | _ fuel₁ ih =>
    intro fuel₂ s h₁ h₂
    match fuel₁, fuel₂, h₁, h₂ with
    | f₁ + 1, f₂ + 1, h₁, h₂ =>
      cases s with
      | nil => rfl
      | cons c rest =>
        simp only [collapseBlankF]
        split
        · rename_i hm
          have hlt := collapseBlank_skip_length hm.2
          simp only [List.length_cons] at h₁ h₂
          rw [ih f₁ (by omega) f₂ _ (by omega) (by omega)]
        · simp only [List.length_cons] at h₁ h₂
          rw [ih f₁ (by omega) f₂ rest (by omega) (by omega)]

theorem collapseBlank_nil : collapseBlank [] = [] := rfl

theorem collapseBlank_cons (c : Char) (rest : PyStr) :
    collapseBlank (c :: rest) =
      if c = '\n' ∧ '\n' ∈ rest.takeWhile isPySpace then
        '\n' :: '\n' :: collapseBlank
          (afterLastNl (rest.takeWhile isPySpace) ++ rest.drop (rest.takeWhile isPySpace).length)
      else c :: collapseBlank rest := by
  simp only [collapseBlank, List.length_cons, collapseBlankF]
  split
  · rename_i hm
    have hlt := collapseBlank_skip_length hm.2
    exact congrArg _ (congrArg _ (collapseBlankF_adequate _ _ _ (by omega) (by omega)))
  · rw [collapseBlankF_adequate (rest.length + 1) (rest.length + 1 + 1) rest (by omega) (by omega)]

end PySem

namespace TextSplitter

theorem packGo_cons_empty (size : Nat) (sep : PyStr) (recur : PyStr → List PyStr)
    (sp : PyStr) (rest : List PyStr) :
    packGo size sep recur (sp :: rest) [] =
      if sp.length ≤ size then packGo size sep recur rest sp
      else if size < sp.length then recur sp ++ packGo size sep recur rest []
      else packGo size sep recur rest sp := rfl

theorem packGo_cons_ne (size : Nat) (sep : PyStr) (recur : PyStr → List PyStr)
    (sp : PyStr) (rest : List PyStr) {cur : PyStr} (hcu : cur ≠ []) :
    packGo size sep recur (sp :: rest) cur =
      if (cur ++ sep ++ sp).length ≤ size then packGo size sep recur rest (cur ++ sep ++ sp)
      else [cur] ++
        (if size < sp.length then recur sp ++ packGo size sep recur rest []
         else packGo size sep recur rest sp) := by
  simp only [packGo, if_neg hcu]

theorem packGo_congr (size : Nat) (sep : PyStr) {r₁ r₂ : PyStr → List PyStr}
    (h : ∀ sp, r₁ sp = r₂ sp) :
    ∀ splits cur, packGo size sep r₁ splits cur = packGo size sep r₂ splits cur := by
  intro splits
  induction splits with
  | nil => intro cur; rfl
  | cons sp rest ih =>
    intro cur
    simp only [packGo, ih, h]

theorem sepsMeasure_next {seps : List PyStr} (h : seps.headD [] ≠ []) :
    sepsMeasure (if 1 < seps.length then seps.tail else [[]]) < sepsMeasure seps := by
  cases seps with
  | nil => simp [List.headD] at h
  | cons s rest =>
    have hs : s ≠ [] := by simpa [List.headD] using h
    cases rest with
    | nil =>
      have hlen : ¬ (1 < ([s] : List PyStr).length) := by simp
      rw [if_neg hlen]
      simp only [sepsMeasure, List.length_cons, List.length_nil, List.headD, if_neg hs]
      simp
    | cons s₂ rest₂ =>
      have hlen : 1 < (s :: s₂ :: rest₂).length := by
        simp only [List.length_cons]; omega
      rw [if_pos hlen]
      simp only [List.tail_cons, sepsMeasure, List.length_cons, List.headD, if_neg hs]
      split <;> omega

theorem splitRecF_adequate (cfg : TextSplitter) (applyOv : Bool) :
    ∀ fuel₁ fuel₂ seps text, sepsMeasure seps < fuel₁ → sepsMeasure seps < fuel₂ →
      splitRecF cfg applyOv fuel₁ seps text = splitRecF cfg applyOv fuel₂ seps text := by
  intro fuel₁
  induction fuel₁ using Nat.strong_induction_on with
  | _ fuel₁ ih =>
    intro fuel₂ seps text h₁ h₂
    match fuel₁, fuel₂, h₁, h₂ with
    | f₁ + 1, f₂ + 1, h₁, h₂ =>
      simp only [splitRecF]
      split
      · rfl
      · split
        · rfl
        · rename_i hsep
          have hnext := sepsMeasure_next hsep
          have hrec : ∀ sp, splitRecF cfg applyOv f₁
                (if 1 < seps.length then seps.tail else [[]]) sp
              = splitRecF cfg applyOv f₂
                (if 1 < seps.length then seps.tail else [[]]) sp := by
            intro sp
            exact ih f₁ (by omega) f₂ _ sp (by omega) (by omega)
          split
          · exact hrec text
          · rw [packGo_congr _ _ hrec]

theorem split_text_recursive_eq (cfg : TextSplitter) (applyOv : Bool)
    (seps : List PyStr) (text : PyStr) :
    split_text_recursive cfg applyOv seps text =
      if text.length ≤ cfg.chunk_size then [text]
      else if seps.headD [] = [] then charFallback cfg text
      else if (pySplit (seps.headD []) text).length = 1 then
        split_text_recursive cfg applyOv (if 1 < seps.length then seps.tail else [[]]) text
      else if applyOv ∧ 0 < cfg.chunk_overlap ∧
          1 < (packGo cfg.chunk_size (seps.headD [])
            (fun sp => split_text_recursive cfg applyOv
              (if 1 < seps.length then seps.tail else [[]]) sp)
            (pySplit (seps.headD []) text) []).length then
        add_overlap cfg.chunk_overlap
          (packGo cfg.chunk_size (seps.headD [])
            (fun sp => split_text_recursive cfg applyOv
              (if 1 < seps.length then seps.tail else [[]]) sp)
            (pySplit (seps.headD []) text) [])
      else
        packGo cfg.chunk_size (seps.headD [])
          (fun sp => split_text_recursive cfg applyOv
            (if 1 < seps.length then seps.tail else [[]]) sp)
          (pySplit (seps.headD []) text) [] := by
  conv_lhs => rw [split_text_recursive]
  simp only [splitRecF]
  split
  · rfl
  · split
    · rfl
    · rename_i hsep
      have hnext := sepsMeasure_next hsep
      have hrec : ∀ sp, splitRecF cfg applyOv (sepsMeasure seps)
            (if 1 < seps.length then seps.tail else [[]]) sp
          = split_text_recursive cfg applyOv
            (if 1 < seps.length then seps.tail else [[]]) sp := by
        intro sp
        rw [split_text_recursive]
        exact splitRecF_adequate cfg applyOv _ _ _ sp (by omega) (by omega)
      split
      · exact hrec text
      · rw [packGo_congr _ _ hrec]

end TextSplitter

namespace TextEmbedder

theorem natToCharsF_adequate :
    ∀ fuel₁ fuel₂ n, n < fuel₁ → n < fuel₂ → natToCharsF fuel₁ n = natToCharsF fuel₂ n := by
  intro fuel₁
  induction fuel₁ using Nat.strong_induction_on with
  | _ fuel₁ ih =>
    intro fuel₂ n h₁ h₂
    match fuel₁, fuel₂, h₁, h₂ with
    | f₁ + 1, f₂ + 1, h₁, h₂ =>
      by_cases hn : n < 10
      · simp [natToCharsF, hn]
      · have hdiv : n / 10 < n := Nat.div_lt_self (by omega) (by omega)
        simp only [natToCharsF, if_neg hn]
        rw [ih f₁ (by omega) f₂ (n / 10) (by omega) (by omega)]

theorem natToChars_eq (n : Nat) :
    natToChars n =
      if n < 10 then [Nat.digitChar n]
      else natToChars (n / 10) ++ [Nat.digitChar (n % 10)] := by
  by_cases hn : n < 10
  · simp [natToChars, natToCharsF, hn]
  · have hdiv : n / 10 < n := Nat.div_lt_self (by omega) (by omega)
    simp only [natToChars, natToCharsF, if_neg hn]
    rw [natToCharsF_adequate n (n / 10 + 1) (n / 10) (by omega) (by omega)]
    rfl

end TextEmbedder


/-! ## Supporting lemmas for the claims -/

namespace PySem

theorem pyStrip_nil : pyStrip [] = [] := rfl

end PySem

namespace TextSplitter

theorem mkRecord_some_id {full : PyStr} {m : List Nat} {i : Nat} {chunk : PyStr}
    {c : Chunk} (h : mkRecord full m i chunk = some c) : c.chunk_id = i := by
  unfold mkRecord at h
  split at h
  · simp at h
  · simp only [Option.some.injEq] at h
    subst h
    rfl

/-- The structure of the record-assembly loop: the `chunk_id` of every record
kept by the `filterMap` over `enumFrom n` is its pre-filter enumeration
index, so the kept ids are strictly increasing (with possible gaps). -/
theorem chunkIds_pairwise_aux (full : PyStr) (m : List Nat) :
    ∀ (chunks : List PyStr) (n : Nat),
      ((((chunks.enumFrom n).filterMap (fun p => mkRecord full m p.1 p.2)).map
          (fun c => c.chunk_id)).Pairwise (· < ·))
      ∧ (∀ j ∈ ((chunks.enumFrom n).filterMap (fun p => mkRecord full m p.1 p.2)).map
          (fun c => c.chunk_id), n ≤ j) := by
  intro chunks
  induction chunks with
  | nil => simp
  | cons ch rest ih =>
    intro n
    rw [List.enumFrom_cons]
    simp only [List.filterMap_cons]
    cases hrec : mkRecord full m n ch with
    | none =>
      refine ⟨(ih (n + 1)).1, fun j hj => ?_⟩
      have := (ih (n + 1)).2 j hj
      omega
    | some c =>
      have hid : c.chunk_id = n := mkRecord_some_id hrec
      simp only [List.map_cons, List.pairwise_cons, hid]
      refine ⟨⟨fun j hj => ?_, (ih (n + 1)).1⟩, fun j hj => ?_⟩
      · have := (ih (n + 1)).2 j hj
        omega
      · rcases List.mem_cons.mp hj with h | h
        · omega
        · have := (ih (n + 1)).2 j h
          omega

end TextSplitter

namespace TextEmbedder

theorem natToChars_ne_nil (n : Nat) : natToChars n ≠ [] := by
  rw [natToChars_eq]
  split <;> simp

theorem digitChar_inj : ∀ m < 10, ∀ n < 10, Nat.digitChar m = Nat.digitChar n → m = n := by
  decide

theorem natToChars_injective : ∀ m n : Nat, natToChars m = natToChars n → m = n := by
  intro m
  induction m using Nat.strong_induction_on with
  | _ m ih =>
    intro n h
    by_cases hm : m < 10 <;> by_cases hn : n < 10
    · rw [natToChars_eq m, if_pos hm, natToChars_eq n, if_pos hn] at h
      simp only [List.cons.injEq, and_true] at h
      exact digitChar_inj m hm n hn h
    · rw [natToChars_eq m, if_pos hm, natToChars_eq n, if_neg hn] at h
      have hlen := congrArg List.length h
      simp only [List.length_cons, List.length_append, List.length_nil,
        List.length_singleton] at hlen
      have : natToChars (n / 10) = [] := List.eq_nil_of_length_eq_zero (by omega)
      exact absurd this (natToChars_ne_nil _)
    · rw [natToChars_eq m, if_neg hm, natToChars_eq n, if_pos hn] at h
      have hlen := congrArg List.length h
      simp only [List.length_cons, List.length_append, List.length_nil,
        List.length_singleton] at hlen
      have : natToChars (m / 10) = [] := List.eq_nil_of_length_eq_zero (by omega)
      exact absurd this (natToChars_ne_nil _)
    · rw [natToChars_eq m, if_neg hm, natToChars_eq n, if_neg hn] at h
      obtain ⟨h₁, h₂⟩ := List.append_inj' h (by simp)
      have hdiv : m / 10 = n / 10 :=
        ih (m / 10) (Nat.div_lt_self (by omega) (by omega)) _ h₁
      simp only [List.cons.injEq, and_true] at h₂
      have hmod : m % 10 = n % 10 :=
        digitChar_inj _ (Nat.mod_lt _ (by omega)) _ (Nat.mod_lt _ (by omega)) h₂
      omega

end TextEmbedder

namespace TextSplitter

theorem char_line_map_aux (lines : List PyStr) :
    ∀ n : Nat,
      (((lines.enumFrom n).map
          (fun p => List.replicate (p.2.length + 1) (p.1 + 1))).flatten.Sorted (· ≤ ·))
      ∧ (∀ x ∈ ((lines.enumFrom n).map
          (fun p => List.replicate (p.2.length + 1) (p.1 + 1))).flatten, n + 1 ≤ x) := by
  induction lines with
  | nil => simp [List.Sorted]
  | cons l rest ih =>
    intro n
    rw [List.enumFrom_cons]
    simp only [List.map_cons, List.flatten_cons]
    constructor
    · rw [List.Sorted, List.pairwise_append]
      refine ⟨?_, (ih (n + 1)).1, ?_⟩
      · rw [List.pairwise_replicate]
        exact Or.inr (le_refl _)
      · intro a ha b hb
        have ha' := List.eq_of_mem_replicate ha
        have hb' := (ih (n + 1)).2 b hb
        omega
    · intro x hx
      rcases List.mem_append.mp hx with h | h
      · have := List.eq_of_mem_replicate h
        omega
      · have := (ih (n + 1)).2 x h
        omega

theorem char_line_map_sorted (lines : List PyStr) :
    (char_line_map lines).Sorted (· ≤ ·) := by
  have := (char_line_map_aux lines 0).1
  simpa [char_line_map, List.enum_eq_enumFrom] using this

theorem char_line_map_ge_one (lines : List PyStr) :
    ∀ x ∈ char_line_map lines, 1 ≤ x := by
  have := (char_line_map_aux lines 0).2
  simpa [char_line_map, List.enum_eq_enumFrom] using this

theorem get_line_number_neg {m : List Nat} {pos : Int} (h : pos < 0) :
    get_line_number m pos = 1 := by
  unfold get_line_number
  rw [if_pos h]

theorem get_line_number_ge_one {m : List Nat} (h1 : ∀ x ∈ m, 1 ≤ x) (pos : Int) :
    1 ≤ get_line_number m pos := by
  unfold get_line_number
  split
  · exact le_refl 1
  · split
    · exact le_refl 1
    · rename_i hm
      apply h1
      have hlen : min pos.toNat (m.length - 1) < m.length := by
        cases m with
        | nil => exact absurd rfl hm
        | cons a t => simp only [List.length_cons]; omega
      rw [List.getD_eq_getElem?_getD, List.getElem?_eq_getElem hlen]
      simp only [Option.getD_some]
      exact List.getElem_mem hlen

theorem get_line_number_mono {m : List Nat} (hs : m.Sorted (· ≤ ·))
    (h1 : ∀ x ∈ m, 1 ≤ x) {p q : Int} (hpq : p ≤ q) :
    get_line_number m p ≤ get_line_number m q := by
  by_cases hp : p < 0
  · rw [get_line_number_neg hp]
    exact get_line_number_ge_one h1 q
  · have hq : ¬ q < 0 := by omega
    unfold get_line_number
    rw [if_neg hp, if_neg hq]
    by_cases hm : m = []
    · rw [if_pos hm, if_pos hm]
    · rw [if_neg hm, if_neg hm]
      have hL : 0 < m.length := List.length_pos.mpr hm
      have hlen₁ : min p.toNat (m.length - 1) < m.length := by omega
      have hlen₂ : min q.toNat (m.length - 1) < m.length := by omega
      rw [List.getD_eq_getElem?_getD, List.getElem?_eq_getElem hlen₁,
        List.getD_eq_getElem?_getD, List.getElem?_eq_getElem hlen₂]
      simp only [Option.getD_some]
      have hij : min p.toNat (m.length - 1) ≤ min q.toNat (m.length - 1) := by
        have : p.toNat ≤ q.toNat := Int.toNat_le_toNat hpq
        omega
      exact hs.rel_get_of_le (a := ⟨_, hlen₁⟩) (b := ⟨_, hlen₂⟩) hij

theorem addOverlapGo_length (k : Nat) :
    ∀ (l : List PyStr) (prev : PyStr), (addOverlapGo k prev l).length = l.length := by
  intro l
  induction l with
  | nil => intro prev; rfl
  | cons c rest ih =>
    intro prev
    simp only [addOverlapGo, List.length_cons, ih]

theorem addOverlapGo_getD (k : Nat) :
    ∀ (l : List PyStr) (prev : PyStr) (i : Nat), i < l.length →
      (addOverlapGo k prev l).getD i []
        = overlapTail k ((prev :: l).getD i []) ++ l.getD i [] := by
  intro l
  induction l with
  | nil => intro prev i h; simp at h
  | cons c rest ih =>
    intro prev i h
    cases i with
    | zero => rfl
    | succ j =>
      simp only [addOverlapGo, List.getD_cons_succ]
      exact ih c j (by simpa using h)

/-- Every record assembled by `mkRecord` (over a sorted, `≥ 1` line map) has
ordered line and character bounds. -/
theorem mkRecord_bounds {full : PyStr} {m : List Nat} {i : Nat} {chunk : PyStr}
    {c : Chunk} (h : mkRecord full m i chunk = some c)
    (hs : m.Sorted (· ≤ ·)) (h1 : ∀ x ∈ m, 1 ≤ x) :
    c.line_start ≤ c.line_end ∧ c.char_start ≤ c.char_end := by
  unfold mkRecord at h
  split at h
  · simp at h
  · rename_i hstrip
    simp only [Option.some.injEq] at h
    subst h
    have hne : chunk ≠ [] := by
      intro hc
      rw [hc] at hstrip
      exact hstrip PySem.pyStrip_nil
    have hlen : 1 ≤ chunk.length := List.length_pos.mpr hne
    constructor
    · exact get_line_number_mono hs h1 (by omega)
    · simp only
      omega

end TextSplitter

/-! ## Claim theorems -/

/-- C9: splitting the text `"A.\n\nB.\n\nC."` with `chunk_size = 4`,
`chunk_overlap = 0` and separators `["\n\n", ""]` returns exactly 3 chunks
whose texts are, in order, `"A."`, `"B."`, `"C."`. -/
theorem C9_scenario_three_chunks :
    ((TextSplitter.split_text ⟨4, 0, [['\n', '\n'], []]⟩
        ['A', '.', '\n', '\n', 'B', '.', '\n', '\n', 'C', '.']).map (fun c => c.text))
      = [['A', '.'], ['B', '.'], ['C', '.']] := by decide

/-- C5 counterexample: splitting `"aa。 。bb"` with `chunk_size = 3`,
`chunk_overlap = 0` and the default separators produces an intermediate
whitespace-only chunk which is dropped, yet the kept chunks carry
`chunk_id = 0` and `chunk_id = 2`: the second kept chunk (0-based position 1)
has index 2, so indices are NOT dense over the kept chunks. -/
theorem C5_counterexample :
    ((TextSplitter.split_text ⟨3, 0, defaultSeparators⟩
        ['a', 'a', '。', ' ', '。', 'b', 'b']).map (fun c => c.chunk_id)) = [0, 2]
    ∧ [0, 2] ≠ List.range 2 := by decide

/-- C5 (amended): the `chunk_id` values of the chunks returned by
`split_text` are strictly increasing over the kept chunks (they are the
pre-filter enumeration indices, so gaps may occur where whitespace-only
chunks were dropped); and the embedder-derived ids
`f"{document_id}_{chunk_index}"`, built from the dense re-enumeration of the
returned chunks, are pairwise distinct for each document. -/
theorem C5_amended :
    (∀ (cfg : TextSplitter) (text : PyStr),
        ((TextSplitter.split_text cfg text).map (fun c => c.chunk_id)).Pairwise (· < ·))
    ∧ (∀ (docId : PyStr) (n : Nat),
        (TextEmbedder.chunk_ids docId n).Pairwise (· ≠ ·)) := by
  constructor
  · intro cfg text
    unfold TextSplitter.split_text
    split
    · simp
    · simp only [List.enum_eq_enumFrom]
      exact (TextSplitter.chunkIds_pairwise_aux _ _ _ 0).1
  · intro docId n
    unfold TextEmbedder.chunk_ids
    rw [List.pairwise_map]
    refine List.Pairwise.imp ?_ (List.sorted_lt_range n)
    intro a b hab heq
    have h₂ := List.append_cancel_left heq
    simp only [List.cons.injEq, true_and] at h₂
    exact absurd (TextEmbedder.natToChars_injective a b h₂) (by omega)

/-- C6 counterexample: with `chunk_size = 4`, `chunk_overlap = 0` and default
separators, the text `"ab\n\ncd\n\nab"` yields chunks with `chunk_id`s
`[0, 1, 2]` but `char_start`s `[0, 4, 0]` — the repeated chunk text `"ab"` is
located by `full_text.find` from the beginning (not after the previous
chunk's span), so `chunk_index` is not strictly increasing with
`char_start`. -/
theorem C6_counterexample :
    ((TextSplitter.split_text ⟨4, 0, defaultSeparators⟩
        ['a', 'b', '\n', '\n', 'c', 'd', '\n', '\n', 'a', 'b']).map (fun c => c.char_start))
      = [0, 4, 0]
    ∧ ((TextSplitter.split_text ⟨4, 0, defaultSeparators⟩
        ['a', 'b', '\n', '\n', 'c', 'd', '\n', '\n', 'a', 'b']).map (fun c => c.chunk_id))
      = [0, 1, 2]
    ∧ ¬ ([0, 4, 0] : List Int).Pairwise (· < ·) := by decide

/-- C6 (amended): every chunk returned by `split_text` satisfies
`line_start ≤ line_end` and `char_start ≤ char_end`; the strict increase of
`chunk_index` with `char_start` does not hold because offsets are recovered
by `full_text.find(chunk)` from position 0. -/
theorem C6_amended (cfg : TextSplitter) (text : PyStr) :
    ∀ c ∈ TextSplitter.split_text cfg text,
      c.line_start ≤ c.line_end ∧ c.char_start ≤ c.char_end := by
  intro c hc
  unfold TextSplitter.split_text at hc
  split at hc
  · simp at hc
  · simp only [List.mem_filterMap] at hc
    obtain ⟨p, hp, hrec⟩ := hc
    exact TextSplitter.mkRecord_bounds hrec (TextSplitter.char_line_map_sorted _)
      (TextSplitter.char_line_map_ge_one _)

/-- Closed witness for `C6_amended` at a concrete input. -/
theorem C6_amended_witness :
    (⟨['a'], 0, 0, 0, 1, 1, 1⟩ : TextSplitter.Chunk)
        ∈ TextSplitter.split_text ⟨4, 0, defaultSeparators⟩ ['a']
    ∧ ((1 : Nat) ≤ 1 ∧ (0 : Int) ≤ 0) :=
  ⟨by decide,
    C6_amended ⟨4, 0, defaultSeparators⟩ ['a']
      ⟨['a'], 0, 0, 0, 1, 1, 1⟩ (by decide)⟩

/-- C10: when an overlap-extended chunk's text does not occur in the
normalized text (`full_text.find` returns `-1`), `split_text` does not raise:
it returns the record with `char_start = -1`,
`char_end = len(chunk) - 2` and `line_start = 1` (shown in general for the
assembly step `mkRecord`, and end-to-end on the concrete input
`"abc\n\ndef"` with `chunk_size = 4`, `chunk_overlap = 2`, whose second chunk
`"bcdef"` straddles the dropped separator and occurs nowhere in the text). -/
theorem C10_unlocatable_overlap_chunk :
    (∀ (full : PyStr) (m : List Nat) (i : Nat) (chunk : PyStr),
        pyFind chunk full = -1 → pyStrip chunk ≠ [] →
        TextSplitter.mkRecord full m i chunk
          = some ⟨pyStrip chunk, i, -1, (chunk.length : Int) - 2, 1,
              TextSplitter.get_line_number m ((chunk.length : Int) - 2),
              (pyStrip chunk).length⟩)
    ∧ TextSplitter.split_text ⟨4, 2, defaultSeparators⟩
        ['a', 'b', 'c', '\n', '\n', 'd', 'e', 'f']
      = [⟨['a', 'b', 'c'], 0, 0, 2, 1, 1, 3⟩,
         ⟨['b', 'c', 'd', 'e', 'f'], 1, -1, 3, 1, 1, 5⟩]
    ∧ pyFind ['b', 'c', 'd', 'e', 'f']
        (TextSplitter.clean_text ['a', 'b', 'c', '\n', '\n', 'd', 'e', 'f']) = -1 := by
  refine ⟨?_, by decide, by decide⟩
  intro full m i chunk hfind hstrip
  unfold TextSplitter.mkRecord
  rw [if_neg hstrip]
  simp only [hfind]
  have harith : (-1 : Int) + chunk.length - 1 = (chunk.length : Int) - 2 := by ring
  rw [harith, TextSplitter.get_line_number_neg (by norm_num)]

/-- Closed witness for the universal part of `C10_unlocatable_overlap_chunk`. -/
theorem C10_unlocatable_overlap_chunk_witness :
    (pyFind ['x', 'y'] ['a', 'b'] = -1 ∧ pyStrip ['x', 'y'] ≠ []) ∧
      TextSplitter.mkRecord ['a', 'b'] [1, 1, 1] 0 ['x', 'y']
        = some ⟨['x', 'y'], 0, -1, 0, 1, 1, 2⟩ := by
  refine ⟨⟨by decide, by decide⟩, ?_⟩
  have h := (C10_unlocatable_overlap_chunk).1 ['a', 'b'] [1, 1, 1] 0 ['x', 'y']
    (by decide) (by decide)
  rw [h]
  decide

/-- C2 counterexample: with `chunk_size = 6`, `chunk_overlap = 2`, separators
`["\n\n", " ", ""]` and text `"ab\n\ncd ef gh"`, the oversized split
`"cd ef gh"` is recursively packed and overlapped into `["cd ef", "efgh"]`,
and the enclosing level then overlaps again, returning
`["ab", "abcd ef", "efefgh"]` — not the once-overlapped
`["ab", "abcd ef", "efgh"]` predicted from the pre-overlap segments
`["ab", "cd ef", "gh"]`.  Overlap is thus re-applied by enclosing recursion
levels, and a final chunk need not equal (previous-segment tail) ++ segment. -/
theorem C2_counterexample :
    TextSplitter.split_text_recursive ⟨6, 2, []⟩ true [['\n', '\n'], [' '], []]
        ['a', 'b', '\n', '\n', 'c', 'd', ' ', 'e', 'f', ' ', 'g', 'h']
      = [['a', 'b'], ['a', 'b', 'c', 'd', ' ', 'e', 'f'], ['e', 'f', 'e', 'f', 'g', 'h']]
    ∧ TextSplitter.split_text_recursive ⟨6, 2, []⟩ false [['\n', '\n'], [' '], []]
        ['a', 'b', '\n', '\n', 'c', 'd', ' ', 'e', 'f', ' ', 'g', 'h']
      = [['a', 'b'], ['c', 'd', ' ', 'e', 'f'], ['g', 'h']]
    ∧ TextSplitter.add_overlap 2 [['a', 'b'], ['c', 'd', ' ', 'e', 'f'], ['g', 'h']]
      = [['a', 'b'], ['a', 'b', 'c', 'd', ' ', 'e', 'f'], ['e', 'f', 'g', 'h']]
    ∧ [['a', 'b'], ['a', 'b', 'c', 'd', ' ', 'e', 'f'], ['e', 'f', 'e', 'f', 'g', 'h']]
      ≠ [['a', 'b'], ['a', 'b', 'c', 'd', ' ', 'e', 'f'], ['e', 'f', 'g', 'h']] := by
  refine ⟨by decide, by decide, by decide, by decide⟩

/-- C2 (amended): within a single `_add_overlap` pass, overlap is applied
exactly once based on the input (pre-overlap) list: the output has the same
length, and for every `i`, output chunk `i+1` equals the trailing
`min(k, len(input[i]))` characters of input chunk `i` prepended to input
chunk `i+1`.  (Chunks produced by an inner recursion level may be overlapped
again by an enclosing level, as `C2_counterexample` shows.) -/
theorem C2_amended (k : Nat) (chunks : List PyStr) :
    (TextSplitter.add_overlap k chunks).length = chunks.length
    ∧ ∀ i : Nat, i + 1 < chunks.length →
        (TextSplitter.add_overlap k chunks).getD (i + 1) []
          = TextSplitter.overlapTail k (chunks.getD i []) ++ chunks.getD (i + 1) [] := by
  match chunks with
  | [] => exact ⟨rfl, fun i h => by simp at h⟩
  | [c] => exact ⟨rfl, fun i h => by simp at h⟩
  | c₁ :: c₂ :: rest =>
    constructor
    · simp only [TextSplitter.add_overlap, List.length_cons]
      rw [TextSplitter.addOverlapGo_length]
      simp
    · intro i h
      simp only [TextSplitter.add_overlap, List.getD_cons_succ]
      rw [TextSplitter.addOverlapGo_getD k (c₂ :: rest) c₁ i (by simpa using h)]

/-- Closed witness for `C2_amended` at a concrete input. -/
theorem C2_amended_witness :
    ((TextSplitter.add_overlap 2 [['a', 'b', 'c'], ['d']]).length = 2
      ∧ ∀ i : Nat, i + 1 < 2 →
          (TextSplitter.add_overlap 2 [['a', 'b', 'c'], ['d']]).getD (i + 1) []
            = TextSplitter.overlapTail 2 ([['a', 'b', 'c'], ['d']].getD i [])
                ++ [['a', 'b', 'c'], ['d']].getD (i + 1) []) :=
  C2_amended 2 [['a', 'b', 'c'], ['d']]

/-- C4: contrary to the claim, `TextSplitter.__init__` accepts
`chunk_overlap >= chunk_size` without any validation (no
`SplitterInvariantViolation` at configuration time); the problem only
surfaces mid-split inside the character fallback: with
`chunk_overlap = chunk_size` the stride is 0 and Python's `range` raises
`ValueError` (modelled as `none`), and with `chunk_overlap > chunk_size` the
stride is negative and the fallback silently yields no chunks at all. -/
theorem C4_no_configuration_time_rejection :
    TextSplitter.init 10 10 none = ⟨10, 10, defaultSeparators⟩
    ∧ TextSplitter.charFallbackPy ⟨10, 10, defaultSeparators⟩ (List.replicate 11 'a') = none
    ∧ TextSplitter.charFallbackPy ⟨10, 12, defaultSeparators⟩ (List.replicate 11 'a')
        = some [] := by
  refine ⟨by decide, by decide, by decide⟩

namespace TextSplitter

theorem charWindowsF_mem_length {stride size : Nat} :
    ∀ (fuel : Nat) (s : PyStr), ∀ c ∈ charWindowsF stride size fuel s,
      c.length ≤ size := by
  intro fuel
  induction fuel with
  | zero => intro s c hc; simp [charWindowsF] at hc
  | succ n ih =>
    intro s c hc
    cases s with
    | nil => simp [charWindowsF] at hc
    | cons a rest =>
      simp only [charWindowsF] at hc
      rcases List.mem_cons.mp hc with h | h
      · subst h
        simp only [List.length_take]
        omega
      · exact ih _ c h

theorem packGo_mem_length (size : Nat) (sep : PyStr) (recur : PyStr → List PyStr)
    (hrec : ∀ sp, ∀ c ∈ recur sp, c.length ≤ size) :
    ∀ (splits : List PyStr) (cur : PyStr), cur.length ≤ size →
      ∀ c ∈ packGo size sep recur splits cur, c.length ≤ size := by
  intro splits
  induction splits with
  | nil =>
    intro cur hcur c hc
    simp only [packGo] at hc
    split at hc
    · simp at hc
    · simp only [List.mem_singleton] at hc
      subst hc
      exact hcur
  | cons sp rest ih =>
    intro cur hcur c hc
    rcases eq_or_ne cur [] with rfl | hcu
    · rw [packGo_cons_empty] at hc
      split at hc
      · rename_i htest
        exact ih sp htest c hc
      · split at hc
        · rcases List.mem_append.mp hc with h₂ | h₂
          · exact hrec sp c h₂
          · exact ih [] (by simp) c h₂
        · exact ih sp (by omega) c hc
    · rw [packGo_cons_ne size sep recur sp rest hcu] at hc
      split at hc
      · rename_i htest
        exact ih _ htest c hc
      · rcases List.mem_append.mp hc with h | h
        · simp only [List.mem_singleton] at h
          subst h
          exact hcur
        · split at h
          · rcases List.mem_append.mp h with h₂ | h₂
            · exact hrec sp c h₂
            · exact ih [] (by simp) c h₂
          · exact ih sp (by omega) c h

theorem pre_overlap_bound_aux (cfg : TextSplitter) :
    ∀ (μ : Nat) (seps : List PyStr), sepsMeasure seps < μ →
      ∀ (text : PyStr), ∀ c ∈ split_text_recursive cfg false seps text,
        c.length ≤ cfg.chunk_size := by
  intro μ
  induction μ using Nat.strong_induction_on with
  | _ μ ih =>
    intro seps hμ text c hc
    rw [split_text_recursive_eq] at hc
    split at hc
    · rename_i hle
      simp only [List.mem_singleton] at hc
      subst hc
      exact hle
    · split at hc
      · exact charWindowsF_mem_length _ _ c hc
      · rename_i hsep
        have hnext := sepsMeasure_next hsep
        split at hc
        · exact ih (sepsMeasure seps) hμ _ hnext text c hc
        · rw [if_neg (by simp)] at hc
          exact packGo_mem_length cfg.chunk_size _ _
            (fun sp d hd => ih (sepsMeasure seps) hμ _ hnext sp d hd)
            _ [] (by simp) c hc

/-- With `chunk_overlap = 0` the `_add_overlap` step never fires, so the
algorithm coincides with its pre-overlap variant: this ties the
`applyOv = false` embedding to the source. -/
theorem split_text_recursive_ov_zero (cfg : TextSplitter)
    (hov : cfg.chunk_overlap = 0) :
    ∀ (μ : Nat) (seps : List PyStr), sepsMeasure seps < μ → ∀ (text : PyStr),
      split_text_recursive cfg true seps text
        = split_text_recursive cfg false seps text := by
  intro μ
  induction μ using Nat.strong_induction_on with
  | _ μ ih =>
    intro seps hμ text
    rw [split_text_recursive_eq, split_text_recursive_eq cfg false]
    split
    · rfl
    · split
      · rfl
      · rename_i hsep
        have hnext := sepsMeasure_next hsep
        have hcong : ∀ sp,
            split_text_recursive cfg true (if 1 < seps.length then seps.tail else [[]]) sp
              = split_text_recursive cfg false (if 1 < seps.length then seps.tail else [[]]) sp :=
          fun sp => ih (sepsMeasure seps) hμ _ hnext sp
        split
        · exact hcong text
        · rw [packGo_congr _ _ hcong]
          simp [hov]

end TextSplitter

/-- C3: for every configuration with `chunk_overlap < chunk_size`, every
input text and any separator list, every leaf chunk produced by the
recursive splitter before overlap injection (the `applyOv = false` variant;
`split_text_recursive_ov_zero` ties it to the source) has length at most
`chunk_size`. -/
theorem C3_pre_overlap_size_bound (cfg : TextSplitter)
    (hov : cfg.chunk_overlap < cfg.chunk_size) (seps : List PyStr) (text : PyStr) :
    ∀ c ∈ TextSplitter.split_text_recursive cfg false seps text,
      c.length ≤ cfg.chunk_size :=
  TextSplitter.pre_overlap_bound_aux cfg (TextSplitter.sepsMeasure seps + 1) seps
    (Nat.lt_succ_self _) text

/-- Closed witness for `C3_pre_overlap_size_bound` at a concrete input. -/
theorem C3_pre_overlap_size_bound_witness :
    (0 : Nat) < 4
    ∧ (['a', 'b'] ∈ TextSplitter.split_text_recursive ⟨4, 0, defaultSeparators⟩ false
        defaultSeparators ['a', 'b', '\n', '\n', 'c', 'd'])
    ∧ (['a', 'b'] : PyStr).length ≤ 4 :=
  ⟨by decide, by decide,
    C3_pre_overlap_size_bound ⟨4, 0, defaultSeparators⟩ (by decide) defaultSeparators
      ['a', 'b', '\n', '\n', 'c', 'd'] ['a', 'b'] (by decide)⟩

namespace TextSplitter

theorem charWindowsF_adequate {stride size : Nat} (hs : 0 < stride) :
    ∀ fuel₁ fuel₂ s, s.length < fuel₁ → s.length < fuel₂ →
      charWindowsF stride size fuel₁ s = charWindowsF stride size fuel₂ s := by
  intro fuel₁
  induction fuel₁ using Nat.strong_induction_on with
  | _ fuel₁ ih =>
    intro fuel₂ s h₁ h₂
    match fuel₁, fuel₂, h₁, h₂ with
    | f₁ + 1, f₂ + 1, h₁, h₂ =>
      cases s with
      | nil => rfl
      | cons c rest =>
        simp only [charWindowsF, List.cons.injEq, true_and]
        have hlt : ((c :: rest).drop stride).length < f₁ := by
          simp only [List.length_drop, List.length_cons] at *
          omega
        have hlt₂ : ((c :: rest).drop stride).length < f₂ := by
          simp only [List.length_drop, List.length_cons] at *
          omega
        exact ih f₁ (by omega) f₂ _ hlt hlt₂

theorem charWindows_cons {stride size : Nat} (hs : 0 < stride) (c : Char) (rest : PyStr) :
    charWindows stride size (c :: rest) =
      ((c :: rest).take size) :: charWindows stride size ((c :: rest).drop stride) := by
  simp only [charWindows, List.length_cons, charWindowsF, List.cons.injEq, true_and]
  exact charWindowsF_adequate hs _ _ _
    (by simp only [List.length_drop, List.length_cons]; omega)
    (by simp only [List.length_drop]; omega)

/-- The character fallback produces exactly the fixed-stride windows
`text[k*stride : k*stride + size]` for `k = 0, 1, …, ⌈len/stride⌉ - 1`. -/
theorem charWindows_ranges_aux {stride size : Nat} (hs : 0 < stride) :
    ∀ (n : Nat) (s : PyStr), s.length = n → charWindows stride size s
      = (List.range ((s.length + stride - 1) / stride)).map
          (fun k => pySliceLen s (k * stride) size) := by
  intro n
  induction n using Nat.strong_induction_on with
  | _ n ih =>
    intro s hn
    cases s with
    | nil =>
      rw [show (([] : PyStr).length + stride - 1) / stride = 0 by
        simp only [List.length_nil, Nat.zero_add]
        exact Nat.div_eq_of_lt (by omega)]
      rfl
    | cons c rest =>
      rw [charWindows_cons hs]
      have hlen : 1 ≤ (c :: rest).length := by simp
      have hnum : ((c :: rest).length + stride - 1) / stride
          = ((c :: rest).length - 1) / stride + 1 := by
        rw [show (c :: rest).length + stride - 1 = ((c :: rest).length - 1) + stride by omega,
          Nat.add_div_right _ hs]
      rw [hnum, List.range_succ_eq_map, List.map_cons, List.map_map]
      have hdroplen : ((c :: rest).drop stride).length < n := by
        simp only [List.length_drop]
        omega
      rw [ih _ hdroplen _ rfl]
      have harith : (((c :: rest).drop stride).length + stride - 1) / stride
          = ((c :: rest).length - 1) / stride := by
        simp only [List.length_drop]
        rcases le_or_lt stride (c :: rest).length with h | h
        · congr 1
          omega
        · rw [show (c :: rest).length - stride = 0 by omega]
          rw [Nat.div_eq_of_lt (by omega), Nat.div_eq_of_lt (by omega)]
      rw [harith]
      refine congrArg₂ _ ?_ (List.map_congr_left ?_)
      · simp [pySliceLen]
      · intro k _
        simp only [Function.comp_apply, pySliceLen, List.drop_drop]
        congr 2
        rw [Nat.succ_eq_add_one]
        ring

theorem charWindows_ranges {stride size : Nat} (hs : 0 < stride) (s : PyStr) :
    charWindows stride size s
      = (List.range ((s.length + stride - 1) / stride)).map
          (fun k => pySliceLen s (k * stride) size) :=
  charWindows_ranges_aux hs s.length s rfl

/-- Descent step: a separator that does not occur in the text is skipped and
the recursion moves to the remaining separators. -/
theorem split_text_recursive_skip (cfg : TextSplitter) {s : PyStr} {rest : List PyStr}
    {text : PyStr} (hs : s ≠ []) (hfind : findSub s text = none)
    (hlen : ¬ text.length ≤ cfg.chunk_size) (hrest : rest ≠ []) :
    split_text_recursive cfg true (s :: rest) text
      = split_text_recursive cfg true rest text := by
  rw [split_text_recursive_eq, if_neg hlen]
  simp only [List.headD_cons]
  rw [if_neg hs]
  have hsplit : pySplit s text = [text] := by
    rw [pySplit_eq _ _ hs, hfind]
    rfl
  rw [hsplit]
  have hone : 1 < (s :: rest).length := by
    cases rest with
    | nil => exact absurd rfl hrest
    | cons a t => simp only [List.length_cons]; omega
  rw [if_pos (by simp), if_pos hone]
  rfl

theorem findSub_replicate {d c : Char} (h : d ≠ c) (ds : PyStr) :
    ∀ n : Nat, findSub (d :: ds) (List.replicate n c) = none := by
  intro n
  induction n with
  | zero => rfl
  | succ m ih =>
    simp only [List.replicate_succ, findSub]
    rw [if_neg ?_]
    · rw [ih]
      rfl
    · intro hp
      have := (List.cons_prefix_cons.mp (List.isPrefixOf_iff_prefix.mp hp)).1
      exact h this

theorem pySliceLen_replicate (n : Nat) (c : Char) (i k : Nat) :
    pySliceLen (List.replicate n c) i k = List.replicate (min k (n - i)) c := by
  simp [pySliceLen, List.drop_replicate, List.take_replicate]

end TextSplitter

/-- C8: when the empty-string fallback separator applies to a text longer
than `chunk_size` (and `chunk_overlap < chunk_size`), the splitter produces
exactly the windows `text[i:i+chunk_size]` for
`i = 0, stride, 2*stride, …` with `stride = chunk_size - chunk_overlap`,
until the text is exhausted; in particular a 2500-character text containing
none of the configured separators, with `chunk_size = 1000` and
`chunk_overlap = 200`, yields exactly 4 chunks starting at offsets
0, 800, 1600, 2400 of lengths 1000, 1000, 900, 100. -/
theorem C8_character_fallback_windows :
    (∀ (cfg : TextSplitter) (seps : List PyStr) (text : PyStr),
        cfg.chunk_overlap < cfg.chunk_size → cfg.chunk_size < text.length →
        seps.headD [] = [] →
        TextSplitter.split_text_recursive cfg true seps text
          = (List.range
                ((text.length + (cfg.chunk_size - cfg.chunk_overlap) - 1)
                  / (cfg.chunk_size - cfg.chunk_overlap))).map
              (fun k => pySliceLen text (k * (cfg.chunk_size - cfg.chunk_overlap))
                cfg.chunk_size))
    ∧ TextSplitter.split_text_recursive ⟨1000, 200, defaultSeparators⟩ true
        defaultSeparators (List.replicate 2500 'a')
      = [List.replicate 1000 'a', List.replicate 1000 'a',
         List.replicate 900 'a', List.replicate 100 'a']
    ∧ TextSplitter.split_text_recursive ⟨1000, 200, defaultSeparators⟩ true
        defaultSeparators (List.replicate 2500 'a')
      = ([0, 800, 1600, 2400] : List Nat).map
          (fun i => pySliceLen (List.replicate 2500 'a') i 1000) := by
  have hgen : ∀ (cfg : TextSplitter) (seps : List PyStr) (text : PyStr),
      cfg.chunk_overlap < cfg.chunk_size → cfg.chunk_size < text.length →
      seps.headD [] = [] →
      TextSplitter.split_text_recursive cfg true seps text
        = (List.range
              ((text.length + (cfg.chunk_size - cfg.chunk_overlap) - 1)
                / (cfg.chunk_size - cfg.chunk_overlap))).map
            (fun k => pySliceLen text (k * (cfg.chunk_size - cfg.chunk_overlap))
              cfg.chunk_size) := by
    intro cfg seps text hov hlen hsep
    rw [TextSplitter.split_text_recursive_eq, if_neg (by omega), if_pos hsep]
    exact TextSplitter.charWindows_ranges (by omega) text
  have hconc : TextSplitter.split_text_recursive ⟨1000, 200, defaultSeparators⟩ true
      defaultSeparators (List.replicate 2500 'a')
    = [List.replicate 1000 'a', List.replicate 1000 'a',
       List.replicate 900 'a', List.replicate 100 'a'] := by
    have hlen : ¬ (List.replicate 2500 'a' : PyStr).length ≤ 1000 := by
      rw [List.length_replicate]
      omega
    show TextSplitter.split_text_recursive ⟨1000, 200, defaultSeparators⟩ true
      [['\n', '\n'], ['\n'], ['。'], ['！'], ['？'], ['；'], ['，'], [' '], []]
      (List.replicate 2500 'a') = _
    rw [TextSplitter.split_text_recursive_skip _ (by decide)
        (TextSplitter.findSub_replicate (by decide) _ 2500) hlen (by decide),
      TextSplitter.split_text_recursive_skip _ (by decide)
        (TextSplitter.findSub_replicate (by decide) _ 2500) hlen (by decide),
      TextSplitter.split_text_recursive_skip _ (by decide)
        (TextSplitter.findSub_replicate (by decide) _ 2500) hlen (by decide),
      TextSplitter.split_text_recursive_skip _ (by decide)
        (TextSplitter.findSub_replicate (by decide) _ 2500) hlen (by decide),
      TextSplitter.split_text_recursive_skip _ (by decide)
        (TextSplitter.findSub_replicate (by decide) _ 2500) hlen (by decide),
      TextSplitter.split_text_recursive_skip _ (by decide)
        (TextSplitter.findSub_replicate (by decide) _ 2500) hlen (by decide),
      TextSplitter.split_text_recursive_skip _ (by decide)
        (TextSplitter.findSub_replicate (by decide) _ 2500) hlen (by decide),
      TextSplitter.split_text_recursive_skip _ (by decide)
        (TextSplitter.findSub_replicate (by decide) _ 2500) hlen (by decide)]
    have hh : ([[]] : List PyStr).headD [] = ([] : PyStr) := rfl
    rw [TextSplitter.split_text_recursive_eq, if_neg hlen, if_pos hh]
    show TextSplitter.charWindows 800 1000 (List.replicate 2500 'a') = _
    rw [TextSplitter.charWindows_ranges (by norm_num)]
    rw [show ((List.replicate 2500 'a' : PyStr).length + 800 - 1) / 800 = 4 by
      rw [List.length_replicate]]
    rw [show List.range 4 = [0, 1, 2, 3] by rfl]
    simp only [List.map_cons, List.map_nil, TextSplitter.pySliceLen_replicate]
    norm_num
  refine ⟨hgen, hconc, ?_⟩
  rw [hconc]
  simp only [List.map_cons, List.map_nil, TextSplitter.pySliceLen_replicate]
  norm_num

/-- Closed witness for the universal part of `C8_character_fallback_windows`. -/
theorem C8_character_fallback_windows_witness :
    ((1 : Nat) < 3 ∧ (3 : Nat) < (['a', 'b', 'c', 'd', 'e'] : PyStr).length
      ∧ ([([] : PyStr)] : List PyStr).headD [] = [])
    ∧ TextSplitter.split_text_recursive ⟨3, 1, []⟩ true [[]] ['a', 'b', 'c', 'd', 'e']
      = (List.range (((['a', 'b', 'c', 'd', 'e'] : PyStr).length + (3 - 1) - 1) / (3 - 1))).map
          (fun k => pySliceLen ['a', 'b', 'c', 'd', 'e'] (k * (3 - 1)) 3) :=
  ⟨⟨by decide, by decide, rfl⟩,
    (C8_character_fallback_windows).1 ⟨3, 1, []⟩ [[]] ['a', 'b', 'c', 'd', 'e']
      (by decide) (by decide) rfl⟩

namespace TextEmbedder

theorem batchAttempts_fail {f : Nat → PyStr → Option Emb} {texts : List PyStr}
    (h : ∀ b, attemptBatch f b texts = none) :
    ∀ (r a : Nat), batchAttempts f texts r a
      = (none, (List.range (r - 1)).map (fun k => 5 + 2 ^ (a + k))) := by
  intro r
  induction r with
  | zero => intro a; rfl
  | succ r ih =>
    intro a
    simp only [batchAttempts, h a]
    by_cases hr : r = 0
    · subst hr
      rfl
    · rw [if_neg hr, ih (a + 1)]
      simp only [Nat.add_sub_cancel]
      refine congrArg₂ _ rfl ?_
      conv_rhs => rw [show r = (r - 1) + 1 from by omega, List.range_succ_eq_map]
      rw [List.map_cons, List.map_map]
      refine congrArg₂ _ (by rw [Nat.add_zero]) (List.map_congr_left ?_)
      intro k _
      simp only [Function.comp_apply]
      have hexp : a + 1 + k = a + k.succ := by omega
      rw [hexp]

theorem batchAttempts_first_success {f : Nat → PyStr → Option Emb} {texts : List PyStr}
    {es : List Emb} (h : attemptBatch f 0 texts = some es) (r : Nat) :
    batchAttempts f texts (r + 1) 0 = (some es, []) := by
  simp only [batchAttempts, h]

end TextEmbedder

/-- C1 counterexample: retry is per batch, not per chunk.  With 5 chunks in
one batch (batch_size 100) and an embedding function that always fails on the
third text, `generate_embeddings`' batch loop retries the whole batch 3
times, sleeping `5 + 2**attempt` seconds after the first two failures
(`[6, 7]`), then skips the entire batch: the result has 0 embeddings and 0
successful chunks — not the 4 results / 1 failed chunk the claim predicts. -/
theorem C1_counterexample :
    TextEmbedder.embedPhase (fun _ t => if t = ['c'] then none else some [0]) 3 100
        [['a'], ['b'], ['c'], ['d'], ['e']]
      = ([], [], [6, 7])
    ∧ ¬ (TextEmbedder.embedPhase (fun _ t => if t = ['c'] then none else some [0]) 3 100
        [['a'], ['b'], ['c'], ['d'], ['e']]).1.length = 4
    ∧ ([['a'], ['b'], ['c'], ['d'], ['e']] : List PyStr).length
        - (TextEmbedder.embedPhase (fun _ t => if t = ['c'] then none else some [0]) 3 100
            [['a'], ['b'], ['c'], ['d'], ['e']]).1.length = 5 := by
  refine ⟨by decide, by decide, by decide⟩

/-- C1 (amended): the retry/backoff loop of `generate_embeddings` operates on
whole batches: a batch whose every attempt fails (e.g. because one of its
chunks always fails) is retried up to `retry` times with backoff
`5 + 2**attempt` seconds (attempt 0-based, no sleep after the last attempt)
and is then skipped entirely — none of its chunks contributes an embedding —
while every other batch is processed normally: here a first batch that
succeeds on its first attempt contributes all its embeddings and chunk
indices. -/
theorem C1_amended (f : Nat → PyStr → Option Emb) (retry : Nat) (B₁ B₂ : List PyStr)
    (es : List Emb) (hr : 1 ≤ retry)
    (h₁ : TextEmbedder.attemptBatch f 0 B₁ = some es)
    (h₂ : ∀ a, TextEmbedder.attemptBatch f a B₂ = none) :
    TextEmbedder.runBatches f retry [B₁, B₂] 0
      = (es, List.range B₁.length,
         (List.range (retry - 1)).map (fun a => 5 + 2 ^ a)) := by
  obtain ⟨r', rfl⟩ : ∃ r', retry = r' + 1 := ⟨retry - 1, by omega⟩
  have hb₁ := TextEmbedder.batchAttempts_first_success h₁ r'
  have hb₂ := TextEmbedder.batchAttempts_fail h₂ (r' + 1) 0
  simp only [TextEmbedder.runBatches, hb₁, hb₂, List.append_nil, Nat.zero_add,
    Nat.add_sub_cancel]
  refine congrArg₂ _ rfl (congrArg₂ _ ?_ ?_)
  · rw [List.map_id'']
    intro i
    omega
  · rfl

/-- Closed witness for `C1_amended` at a concrete input. -/
theorem C1_amended_witness :
    ((1 : Nat) ≤ 3
      ∧ TextEmbedder.attemptBatch (fun _ t => if t = ['c'] then none else some [0]) 0 [['a']]
          = some [[0]])
    ∧ TextEmbedder.runBatches (fun _ t => if t = ['c'] then none else some [0]) 3
        [[['a']], [['c']]] 0
      = ([[0]], List.range 1, (List.range 2).map (fun a => 5 + 2 ^ a)) :=
  ⟨⟨by decide, by decide⟩,
    C1_amended (fun _ t => if t = ['c'] then none else some [0]) 3 [['a']] [['c']] [[0]]
      (by decide) (by decide) (fun a => rfl)⟩

/-! ## Lemmas for C7: idempotence analysis of the cleaning pipelines -/

namespace PySem

theorem pyRStrip_eq_rdropWhile (s : PyStr) : pyRStrip s = List.rdropWhile isPySpace s := rfl

theorem pyLStrip_head_not_ws {s : PyStr} {c : Char} {t : PyStr}
    (h : pyLStrip s = c :: t) : isPySpace c = false := by
  have hh := List.head?_dropWhile_not isPySpace s
  rw [show s.dropWhile isPySpace = c :: t from h] at hh
  simpa using hh

theorem pyLStrip_cons_ws {c : Char} (hc : isPySpace c = true) (s : PyStr) :
    pyLStrip (c :: s) = pyLStrip s := by
  simp [pyLStrip, List.dropWhile_cons, hc]

theorem pyLStrip_cons_not_ws {c : Char} (hc : isPySpace c = false) (s : PyStr) :
    pyLStrip (c :: s) = c :: s := by
  simp [pyLStrip, List.dropWhile_cons, hc]

theorem pyStrip_cons_ws {c : Char} (hc : isPySpace c = true) (s : PyStr) :
    pyStrip (c :: s) = pyStrip s := by
  unfold pyStrip
  rw [pyLStrip_cons_ws hc]

theorem pyLStrip_rstrip_lstrip (s : PyStr) :
    pyLStrip (pyRStrip (pyLStrip s)) = pyRStrip (pyLStrip s) := by
  cases hy : pyRStrip (pyLStrip s) with
  | nil => rfl
  | cons c t =>
    have hpre : pyRStrip (pyLStrip s) <+: pyLStrip s := by
      rw [pyRStrip_eq_rdropWhile]
      exact List.rdropWhile_prefix _ _
    rw [hy] at hpre
    obtain ⟨u, hu⟩ := hpre
    have hhead : isPySpace c = false := pyLStrip_head_not_ws (c := c) (t := t ++ u) (by
      rw [← hu]
      simp)
    exact pyLStrip_cons_not_ws hhead t

theorem pyRStrip_idem (s : PyStr) : pyRStrip (pyRStrip s) = pyRStrip s := by
  rw [pyRStrip_eq_rdropWhile, pyRStrip_eq_rdropWhile]
  exact List.rdropWhile_idempotent _ _

theorem pyStrip_idem (s : PyStr) : pyStrip (pyStrip s) = pyStrip s := by
  show pyRStrip (pyLStrip (pyRStrip (pyLStrip s))) = pyRStrip (pyLStrip s)
  rw [pyLStrip_rstrip_lstrip, pyRStrip_idem]

theorem mem_pyLStrip_of_not_ws {s : PyStr} {c : Char} (hc : c ∈ s)
    (hws : isPySpace c = false) : c ∈ pyLStrip s := by
  unfold pyLStrip
  induction s with
  | nil => simp at hc
  | cons a t ih =>
    rcases List.mem_cons.mp hc with rfl | hct
    · rw [List.dropWhile_cons_of_neg (by simp [hws])]
      exact List.mem_cons_self _ _
    · by_cases ha : isPySpace a = true
      · rw [List.dropWhile_cons_of_pos ha]
        exact ih hct
      · rw [List.dropWhile_cons_of_neg (by simp [ha])]
        exact List.mem_cons_of_mem _ hct

theorem pyStrip_nil_iff {s : PyStr} : pyStrip s = [] ↔ ∀ c ∈ s, isPySpace c = true := by
  constructor
  · intro h c hc
    unfold pyStrip at h
    rw [pyRStrip_eq_rdropWhile, List.rdropWhile_eq_nil_iff] at h
    by_cases hws : isPySpace c = true
    · exact hws
    · exfalso
      have hws' : isPySpace c = false := by
        cases hb : isPySpace c
        · rfl
        · exact absurd hb hws
      exact hws (h c (mem_pyLStrip_of_not_ws hc hws'))
  · intro h
    have h1 : pyLStrip s = [] := by
      unfold pyLStrip
      rw [List.dropWhile_eq_nil_iff]
      exact h
    unfold pyStrip
    rw [h1]
    rfl

theorem pyStrip_fixed_lstrip {x : PyStr} (h : pyStrip x = x) : pyLStrip x = x := by
  cases x with
  | nil => rfl
  | cons c t =>
    have hc : isPySpace c = false := by
      by_contra hcc
      have hcc' : isPySpace c = true := by
        cases hb : isPySpace c
        · exact absurd hb hcc
        · rfl
      have hlen1 : (pyLStrip (c :: t)).length ≤ t.length := by
        rw [pyLStrip_cons_ws hcc']
        exact (List.dropWhile_suffix _).sublist.length_le
      have hlen2 : (pyStrip (c :: t)).length ≤ (pyLStrip (c :: t)).length := by
        unfold pyStrip
        rw [pyRStrip_eq_rdropWhile]
        exact (List.rdropWhile_prefix _ _).sublist.length_le
      have hlen3 := congrArg List.length h
      simp only [List.length_cons] at hlen3
      omega
    exact pyLStrip_cons_not_ws hc t

theorem pyStrip_fixed_head {x : PyStr} {c : Char} {t : PyStr}
    (h : pyStrip x = x) (hx : x = c :: t) : isPySpace c = false := by
  subst hx
  exact pyLStrip_head_not_ws (pyStrip_fixed_lstrip h)

theorem pyRStrip_append_allws {b : PyStr} (hb : ∀ c ∈ b, isPySpace c = true)
    (a : PyStr) : pyRStrip (a ++ b) = pyRStrip a := by
  unfold pyRStrip
  rw [List.reverse_append,
    List.dropWhile_append_of_pos (fun x hx => hb x (List.mem_reverse.mp hx))]

theorem pyRStrip_append_not_allws {b : PyStr} {c : Char}
    (hc : c ∈ b) (hcw : isPySpace c = false) (a : PyStr) :
    pyRStrip (a ++ b) = a ++ pyRStrip b := by
  unfold pyRStrip
  rw [List.reverse_append, List.dropWhile_append]
  have hne : b.reverse.dropWhile isPySpace ≠ [] := by
    intro h
    rw [List.dropWhile_eq_nil_iff] at h
    have := h c (List.mem_reverse.mpr hc)
    rw [hcw] at this
    exact Bool.false_ne_true this
  rw [if_neg (by simpa [List.isEmpty_iff] using hne), List.reverse_append,
    List.reverse_reverse]

end PySem

namespace PySem

theorem wsedit_refl : ∀ s : PyStr, WsEdit s s
  | [] => .nil
  | c :: t => .keep c (wsedit_refl t)

theorem wsedit_trans : ∀ {s t u : PyStr}, WsEdit s t → WsEdit t u → WsEdit s u := by
  intro s t u h1
  induction h1 generalizing u with
  | nil =>
    intro h2
    cases h2
    exact .nil
  | keep c h ih =>
    intro h2
    cases h2 with
    | keep _ h2' => exact .keep c (ih h2')
    | del hws h2' => exact .del hws (ih h2')
    | subst hc hd h2' => exact .subst hc hd (ih h2')
  | del hws h ih =>
    intro h2
    exact .del hws (ih h2)
  | subst hc hd h ih =>
    intro h2
    cases h2 with
    | keep _ h2' => exact .subst hc hd (ih h2')
    | del hws2 h2' => exact .del hc (ih h2')
    | subst hws2 he h2' => exact .subst hc he (ih h2')

theorem wsedit_head_not_ws {c : Char} {s t : PyStr} (h : WsEdit (c :: s) t)
    (hc : isPySpace c = false) : ∃ t', t = c :: t' ∧ WsEdit s t' := by
  cases h with
  | keep _ h' => exact ⟨_, rfl, h'⟩
  | del hws h' =>
    rw [hws] at hc
    exact absurd hc (by simp)
  | subst hws _ h' =>
    rw [hws] at hc
    exact absurd hc (by simp)

theorem wsedit_mem_not_ws {s t : PyStr} {a : Char} (h : WsEdit s t)
    (ha : isPySpace a = false) (hmem : a ∈ t) : a ∈ s := by
  induction h with
  | nil => exact hmem
  | keep c h ih =>
    rcases List.mem_cons.mp hmem with rfl | hm
    · exact List.mem_cons_self _ _
    · exact List.mem_cons_of_mem _ (ih hm)
  | del hws h ih => exact List.mem_cons_of_mem _ (ih hmem)
  | subst hc hd h ih =>
    rcases List.mem_cons.mp hmem with rfl | hm
    · rw [hd] at ha
      exact absurd ha (by simp)
    · exact List.mem_cons_of_mem _ (ih hm)

theorem wsedit_append {s₁ t₁ s₂ t₂ : PyStr} (h₁ : WsEdit s₁ t₁) (h₂ : WsEdit s₂ t₂) :
    WsEdit (s₁ ++ s₂) (t₁ ++ t₂) := by
  induction h₁ with
  | nil => exact h₂
  | keep c h ih => exact .keep c ih
  | del hws h ih => exact .del hws ih
  | subst hc hd h ih => exact .subst hc hd ih

theorem wsedit_del_all {u : PyStr} (hu : ∀ c ∈ u, isPySpace c = true) : WsEdit u [] := by
  induction u with
  | nil => exact .nil
  | cons c rest ih =>
    exact .del (hu c (List.mem_cons_self _ _))
      (ih (fun d hd => hu d (List.mem_cons_of_mem _ hd)))

theorem wsedit_del_left {u : PyStr} (hu : ∀ c ∈ u, isPySpace c = true)
    {s t : PyStr} (h : WsEdit s t) : WsEdit (u ++ s) t := by
  have := wsedit_append (wsedit_del_all hu) h
  simpa using this

theorem wsedit_del_right {u : PyStr} (hu : ∀ c ∈ u, isPySpace c = true)
    (v : PyStr) : WsEdit (v ++ u) v := by
  have := wsedit_append (wsedit_refl v) (wsedit_del_all hu)
  simpa using this

theorem wsedit_normNewlines : ∀ s : PyStr, WsEdit s (normNewlines s) := by
  intro s
  induction s using normNewlines.induct with
  | case1 => exact .nil
  | case2 => exact .subst (by decide) (by decide) .nil
  | case3 c hc =>
    have hn : normNewlines [c] = [c] := by
      simp [normNewlines, hc]
    rw [hn]
    exact .keep c .nil
  | case4 rest ih => exact .del (by decide) (.keep '\n' ih)
  | case5 d rest hd ih =>
    have hn : normNewlines ('\x0d' :: d :: rest) = '\n' :: normNewlines (d :: rest) := by
      simp [normNewlines, hd]
    rw [hn]
    exact .subst (by decide) (by decide) ih
  | case6 c d rest hc ih =>
    have hn : normNewlines (c :: d :: rest) = c :: normNewlines (d :: rest) := by
      simp [normNewlines, hc]
    rw [hn]
    exact .keep c ih

theorem wsedit_pyLStrip (s : PyStr) : WsEdit s (pyLStrip s) := by
  induction s with
  | nil => exact .nil
  | cons c rest ih =>
    by_cases hc : isPySpace c = true
    · rw [pyLStrip_cons_ws hc]
      exact .del hc ih
    · rw [pyLStrip_cons_not_ws (by simpa using hc)]
      exact wsedit_refl _

theorem wsedit_pyRStrip (s : PyStr) : WsEdit s (pyRStrip s) := by
  have hdecomp : pyRStrip s ++ List.rtakeWhile isPySpace s = s := by
    rw [pyRStrip_eq_rdropWhile, List.rdropWhile, List.rtakeWhile, ← List.reverse_append,
      List.takeWhile_append_dropWhile, List.reverse_reverse]
  conv_lhs => rw [← hdecomp]
  exact wsedit_del_right (fun c hc => List.mem_rtakeWhile_imp hc) _

theorem wsedit_pyStrip (s : PyStr) : WsEdit s (pyStrip s) :=
  wsedit_trans (wsedit_pyLStrip s) (wsedit_pyRStrip (pyLStrip s))

theorem wsedit_collapseWsGo : ∀ (b : Bool) (s : PyStr), WsEdit s (collapseWsGo b s) := by
  intro b s
  induction b, s using collapseWsGo.induct with
  | case1 b => exact .nil
  | case2 c rest hws ih =>
    have hg : collapseWsGo true (c :: rest) = collapseWsGo true rest := by
      simp [collapseWsGo, hws]
    rw [hg]
    exact .del hws ih
  | case3 b c rest hws hb ih =>
    have hb' : b = false := by
      cases b
      · rfl
      · exact absurd rfl hb
    subst hb'
    have hg : collapseWsGo false (c :: rest) = ' ' :: collapseWsGo true rest := by
      simp [collapseWsGo, hws]
    rw [hg]
    exact .subst hws (by decide) ih
  | case4 b c rest hws ih =>
    have hg : collapseWsGo b (c :: rest) = c :: collapseWsGo false rest := by
      simp [collapseWsGo, hws]
    rw [hg]
    exact .keep c ih

theorem wsedit_collapseWs (s : PyStr) : WsEdit s (collapseWs s) :=
  wsedit_collapseWsGo false s

theorem afterLastNl_decomp {w : PyStr} (h : '\n' ∈ w) :
    ∃ w₁ : PyStr, w = w₁ ++ '\n' :: afterLastNl w := by
  have hsplit : w.reverse.takeWhile (fun d => !(d = '\n'))
      ++ w.reverse.dropWhile (fun d => !(d = '\n')) = w.reverse :=
    List.takeWhile_append_dropWhile _ _
  have hne : w.reverse.dropWhile (fun d => !(d = '\n')) ≠ [] := by
    intro hnil
    rw [List.dropWhile_eq_nil_iff] at hnil
    have := hnil '\n' (List.mem_reverse.mpr h)
    simp at this
  obtain ⟨d, D, hD⟩ := List.exists_cons_of_ne_nil hne
  have hd : d = '\n' := by
    have := List.head?_dropWhile_not (fun d => !(d = '\n')) w.reverse
    rw [hD] at this
    simpa using this
  subst hd
  refine ⟨D.reverse, ?_⟩
  have hA : afterLastNl w = (w.reverse.takeWhile (fun d => !(d = '\n'))).reverse := rfl
  rw [hA]
  conv_lhs => rw [← List.reverse_reverse w, ← hsplit, hD]
  rw [List.reverse_append, List.reverse_cons, List.append_assoc]
  rfl

theorem drop_takeWhile_length (p : Char → Bool) (s : PyStr) :
    s.drop (s.takeWhile p).length = s.dropWhile p := by
  have h := List.takeWhile_append_dropWhile p s
  calc s.drop (s.takeWhile p).length
      = (s.takeWhile p ++ s.dropWhile p).drop (s.takeWhile p).length := by rw [h]
    _ = s.dropWhile p := List.drop_left _ _

theorem wsedit_collapseBlank : ∀ (n : Nat) (s : PyStr), s.length ≤ n →
    WsEdit s (collapseBlank s) := by
  intro n
  induction n using Nat.strong_induction_on with
  | _ n ih =>
    intro s hs
    match s, hs with
    | [], _ => exact .nil
    | c :: rest, hs =>
      rw [collapseBlank_cons]
      split
      · rename_i hm
        obtain ⟨hc, hmem⟩ := hm
        subst hc
        have hws : ∀ x ∈ rest.takeWhile isPySpace, isPySpace x = true :=
          fun x hx => List.mem_takeWhile_imp hx
        obtain ⟨w₁, hw₁⟩ := afterLastNl_decomp hmem
        have hrest : rest = w₁ ++ '\n' ::
            (afterLastNl (rest.takeWhile isPySpace) ++ rest.drop (rest.takeWhile isPySpace).length) := by
          have hD : rest = rest.takeWhile isPySpace
              ++ rest.drop (rest.takeWhile isPySpace).length := by
            rw [drop_takeWhile_length]
            exact (List.takeWhile_append_dropWhile _ _).symm
          conv_lhs => rw [hD]
          nth_rewrite 1 [hw₁]
          rw [List.append_assoc, List.cons_append]
        have hlt : (afterLastNl (rest.takeWhile isPySpace)
            ++ rest.drop (rest.takeWhile isPySpace).length).length < n := by
          have h₁ := afterLastNl_length_lt hmem
          have h₂ : (rest.takeWhile isPySpace).length ≤ rest.length :=
            (List.takeWhile_sublist _).length_le
          simp only [List.length_cons] at hs
          simp only [List.length_append, List.length_drop]
          omega
        refine .keep '\n' ?_
        conv_lhs => rw [hrest]
        refine wsedit_del_left ?_ (.keep '\n' (ih _ (by omega) _ (le_refl _)))
        intro x hx
        apply hws
        rw [hw₁]
        exact List.mem_append_left _ hx
      · refine .keep c (ih (n - 1) ?_ rest ?_) <;>
          simp only [List.length_cons] at hs <;> omega

theorem wsedit_collapseBlank' (s : PyStr) : WsEdit s (collapseBlank s) :=
  wsedit_collapseBlank s.length s (le_refl _)

end PySem

namespace PySem

theorem mem_tagSkip {a : Char} {rest : PyStr} (h : a ∈ tagSkip rest) : a ∈ rest := by
  unfold tagSkip at h
  exact (List.dropWhile_sublist _).subset (List.mem_of_mem_drop h)

theorem mem_stripTags_aux : ∀ (n : Nat) (s : PyStr), s.length ≤ n →
    ∀ {a : Char}, a ∈ stripTags s → a ∈ s := by
  intro n
  induction n using Nat.strong_induction_on with
  | _ n ih =>
    intro s hs a ha
    match s, hs with
    | [], _ => rw [stripTags_nil] at ha; exact absurd ha (List.not_mem_nil _)
    | c :: rest, hs =>
      rw [stripTags_cons] at ha
      simp only [List.length_cons] at hs
      split at ha
      · rename_i hm
        have hlt := tagSkip_length_lt (tagMatch_mem hm.2)
        exact List.mem_cons_of_mem _
          (mem_tagSkip (ih (n - 1) (by omega) _ (by omega) ha))
      · rcases List.mem_cons.mp ha with rfl | ha'
        · exact List.mem_cons_self _ _
        · exact List.mem_cons_of_mem _ (ih (n - 1) (by omega) rest (by omega) ha')

theorem mem_stripTags {a : Char} {s : PyStr} (h : a ∈ stripTags s) : a ∈ s :=
  mem_stripTags_aux s.length s (le_refl _) h

theorem tagOk_cons_iff {c : Char} {rest : PyStr} :
    tagOk (c :: rest) = true ↔
      (c = '<' → (rest.head? = some '>' ∨ '>' ∉ rest)) ∧ tagOk rest = true := by
  simp only [tagOk, Bool.and_eq_true, decide_eq_true_eq]

theorem stripTags_tagOk_aux : ∀ (n : Nat) (s : PyStr), s.length ≤ n →
    tagOk (stripTags s) = true := by
  intro n
  induction n using Nat.strong_induction_on with
  | _ n ih =>
    intro s hs
    match s, hs with
    | [], _ => rfl
    | c :: rest, hs =>
      rw [stripTags_cons]
      simp only [List.length_cons] at hs
      split
      · rename_i hm
        have hlt := tagSkip_length_lt (tagMatch_mem hm.2)
        exact ih (n - 1) (by omega) _ (by omega)
      · rename_i hnm
        refine tagOk_cons_iff.mpr ⟨?_, ih (n - 1) (by omega) rest (by omega)⟩
        intro hc
        subst hc
        have hnotM : ¬ (tagMatch rest = true) := fun hM => hnm ⟨rfl, hM⟩
        cases rest with
        | nil => right; rw [stripTags_nil]; exact List.not_mem_nil _
        | cons d t =>
          simp only [tagMatch, Bool.and_eq_true, decide_eq_true_eq] at hnotM
          by_cases hd : d = '>'
          · left
            subst hd
            rw [stripTags_cons, if_neg (fun hm => absurd hm.1 (by decide))]
            rfl
          · right
            have hgt : '>' ∉ t := fun hin => hnotM ⟨hd, hin⟩
            intro hmem
            have := mem_stripTags hmem
            rcases List.mem_cons.mp this with h | h
            · exact hd h.symm
            · exact hgt h

theorem stripTags_tagOk (s : PyStr) : tagOk (stripTags s) = true :=
  stripTags_tagOk_aux s.length s (le_refl _)

theorem tagOk_fix : ∀ {s : PyStr}, tagOk s = true → stripTags s = s := by
  intro s
  induction s with
  | nil => intro _; rfl
  | cons c rest ih =>
    intro hok
    obtain ⟨h1, h2⟩ := tagOk_cons_iff.mp hok
    rw [stripTags_cons, if_neg, ih h2]
    rintro ⟨rfl, hM⟩
    cases rest with
    | nil => simp [tagMatch] at hM
    | cons d t =>
      simp only [tagMatch, Bool.and_eq_true, decide_eq_true_eq] at hM
      rcases h1 rfl with hh | hh
      · exact hM.1 (by simpa using hh)
      · exact hh (List.mem_cons_of_mem _ hM.2)

theorem wsedit_tagOk {s t : PyStr} (h : WsEdit s t) (hok : tagOk s = true) :
    tagOk t = true := by
  induction h with
  | nil => exact hok
  | keep c h ih =>
    rename_i u v
    obtain ⟨h1, h2⟩ := tagOk_cons_iff.mp hok
    refine tagOk_cons_iff.mpr ⟨?_, ih h2⟩
    intro hc
    rcases h1 hc with hh | hh
    · left
      cases u with
      | nil => simp at hh
      | cons d sr =>
        have hd : d = '>' := by simpa using hh
        subst hd
        obtain ⟨t'', ht'', _⟩ := wsedit_head_not_ws h (by decide)
        rw [ht'']
        rfl
    · right
      intro hmem
      exact hh (wsedit_mem_not_ws h (by decide) hmem)
  | del hws h ih => exact ih (tagOk_cons_iff.mp hok).2
  | subst hc hd h ih =>
    refine tagOk_cons_iff.mpr ⟨?_, ih (tagOk_cons_iff.mp hok).2⟩
    intro hdc
    rw [hdc] at hd
    exact absurd hd (by decide)

end PySem

namespace PySem

theorem normNewlines_r1 : normNewlines ['\x0d'] = ['\n'] := rfl

theorem normNewlines_rn (rest : PyStr) :
    normNewlines ('\x0d' :: '\n' :: rest) = '\n' :: normNewlines rest := rfl

theorem normNewlines_rd (d : Char) (rest : PyStr) (hd : ¬ d = '\n') :
    normNewlines ('\x0d' :: d :: rest) = '\n' :: normNewlines (d :: rest) := by
  simp [normNewlines, hd]

theorem normNewlines_c1 (c : Char) (hc : ¬ c = '\x0d') : normNewlines [c] = [c] := by
  simp [normNewlines, hc]

theorem normNewlines_cd (c d : Char) (rest : PyStr) (hc : ¬ c = '\x0d') :
    normNewlines (c :: d :: rest) = c :: normNewlines (d :: rest) := by
  simp [normNewlines, hc]

theorem normNewlines_no_cr : ∀ s : PyStr, '\x0d' ∉ normNewlines s := by
  intro s
  induction s using normNewlines.induct with
  | case1 => simp [normNewlines]
  | case2 => rw [normNewlines_r1]; decide
  | case3 c hc =>
    rw [normNewlines_c1 c hc]
    simp only [List.mem_singleton]
    exact fun h => hc h.symm
  | case4 rest ih =>
    rw [normNewlines_rn]
    intro h
    rcases List.mem_cons.mp h with h | h
    · exact absurd h (by decide)
    · exact ih h
  | case5 d rest hd ih =>
    rw [normNewlines_rd d rest hd]
    intro h
    rcases List.mem_cons.mp h with h | h
    · exact absurd h (by decide)
    · exact ih h
  | case6 c d rest hc ih =>
    rw [normNewlines_cd c d rest hc]
    intro h
    rcases List.mem_cons.mp h with h | h
    · exact hc h.symm
    · exact ih h

theorem normNewlines_fix : ∀ {s : PyStr}, '\x0d' ∉ s → normNewlines s = s := by
  intro s
  induction s using normNewlines.induct with
  | case1 => intro _; rfl
  | case2 => intro h; exact absurd (List.mem_singleton_self _) h
  | case3 c hc => intro _; exact normNewlines_c1 c hc
  | case4 rest ih => intro h; exact absurd (List.mem_cons_self _ _) h
  | case5 d rest hd ih => intro h; exact absurd (List.mem_cons_self _ _) h
  | case6 c d rest hc ih =>
    intro h
    rw [normNewlines_cd c d rest hc, ih (fun hm => h (List.mem_cons_of_mem _ hm))]

theorem mem_normNewlines {a : Char} : ∀ {s : PyStr},
    a ∈ normNewlines s → a ∈ s ∨ a = '\n' := by
  intro s
  induction s using normNewlines.induct with
  | case1 => intro h; exact absurd h (List.not_mem_nil _)
  | case2 =>
    rw [normNewlines_r1]
    intro h
    right
    exact List.mem_singleton.mp h
  | case3 c hc =>
    rw [normNewlines_c1 c hc]
    intro h
    left
    exact h
  | case4 rest ih =>
    rw [normNewlines_rn]
    intro h
    rcases List.mem_cons.mp h with rfl | h
    · right; rfl
    · rcases ih h with h | h
      · exact Or.inl (List.mem_cons_of_mem _ (List.mem_cons_of_mem _ h))
      · exact Or.inr h
  | case5 d rest hd ih =>
    rw [normNewlines_rd d rest hd]
    intro h
    rcases List.mem_cons.mp h with rfl | h
    · right; rfl
    · rcases ih h with h | h
      · exact Or.inl (List.mem_cons_of_mem _ h)
      · exact Or.inr h
  | case6 c d rest hc ih =>
    rw [normNewlines_cd c d rest hc]
    intro h
    rcases List.mem_cons.mp h with rfl | h
    · exact Or.inl (List.mem_cons_self _ _)
    · rcases ih h with h | h
      · exact Or.inl (List.mem_cons_of_mem _ h)
      · exact Or.inr h

end PySem

namespace PySem

theorem findSub_nl_none : ∀ {s : PyStr}, '\n' ∉ s → findSub ['\n'] s = none := by
  intro s
  induction s with
  | nil => intro _; rfl
  | cons d rest ih =>
    intro h
    have hd : ¬ ('\n' = d) := fun e => h (by rw [e]; exact List.mem_cons_self _ _)
    simp only [findSub]
    rw [if_neg ?_]
    · rw [ih (fun hm => h (List.mem_cons_of_mem _ hm))]
      rfl
    · intro hp
      exact hd (List.cons_prefix_cons.mp (List.isPrefixOf_iff_prefix.mp hp)).1

theorem findSub_nl_append : ∀ (a : PyStr), '\n' ∉ a → ∀ b : PyStr,
    findSub ['\n'] (a ++ '\n' :: b) = some a.length := by
  intro a
  induction a with
  | nil =>
    intro _ b
    have hp : (['\n'] : PyStr).isPrefixOf ('\n' :: b) = true :=
      List.isPrefixOf_iff_prefix.mpr (List.cons_prefix_cons.mpr ⟨rfl, List.nil_prefix⟩)
    rw [List.nil_append]
    simp only [findSub]
    rw [if_pos hp]
    rfl
  | cons d rest ih =>
    intro h b
    have hd : ¬ ('\n' = d) := fun e => h (by rw [e]; exact List.mem_cons_self _ _)
    rw [List.cons_append]
    simp only [findSub]
    rw [if_neg ?_]
    · rw [ih (fun hm => h (List.mem_cons_of_mem _ hm)) b]
      rfl
    · intro hp
      exact hd (List.cons_prefix_cons.mp (List.isPrefixOf_iff_prefix.mp hp)).1

theorem splitLines_no_newline {s : PyStr} (h : '\n' ∉ s) : splitLines s = [s] := by
  rw [splitLines, pySplit_eq _ _ (by simp), findSub_nl_none h]
  rfl

theorem splitLines_cons {a : PyStr} (ha : '\n' ∉ a) (b : PyStr) :
    splitLines (a ++ '\n' :: b) = a :: splitLines b := by
  rw [splitLines, pySplit_eq _ _ (by simp), findSub_nl_append a ha b]
  simp only [Option.elim_some]
  congr 1
  · exact List.take_left a ('\n' :: b)
  · rw [show a ++ '\n' :: b = (a ++ ['\n']) ++ b by simp,
      show a.length + (['\n'] : PyStr).length = (a ++ ['\n']).length by simp,
      List.drop_left]
    rfl

theorem splitLines_ne_nil (s : PyStr) : splitLines s ≠ [] := by
  rw [splitLines, pySplit_eq _ _ (by simp)]
  cases findSub ['\n'] s with
  | none => simp
  | some i => simp

theorem first_nl_decomp {s : PyStr} (h : '\n' ∈ s) :
    ∃ a b : PyStr, s = a ++ '\n' :: b ∧ '\n' ∉ a := by
  have hsplit : s.takeWhile (fun d => !(d = '\n'))
      ++ s.dropWhile (fun d => !(d = '\n')) = s := List.takeWhile_append_dropWhile _ _
  have hne : s.dropWhile (fun d => !(d = '\n')) ≠ [] := by
    intro hnil
    rw [List.dropWhile_eq_nil_iff] at hnil
    have := hnil '\n' h
    simp at this
  obtain ⟨d, D, hD⟩ := List.exists_cons_of_ne_nil hne
  have hd : d = '\n' := by
    have := List.head?_dropWhile_not (fun d => !(d = '\n')) s
    rw [hD] at this
    simpa using this
  subst hd
  refine ⟨s.takeWhile (fun d => !(d = '\n')), D, ?_, ?_⟩
  · conv_lhs => rw [← hsplit, hD]
  · intro hmem
    have := List.mem_takeWhile_imp hmem
    simp at this

theorem splitLines_no_nl : ∀ (n : Nat) (s : PyStr), s.length ≤ n →
    ∀ l ∈ splitLines s, '\n' ∉ l := by
  intro n
  induction n using Nat.strong_induction_on with
  | _ n ih =>
    intro s hs l hl
    by_cases hmem : '\n' ∈ s
    · obtain ⟨a, b, rfl, ha⟩ := first_nl_decomp hmem
      rw [splitLines_cons ha] at hl
      rcases List.mem_cons.mp hl with rfl | hl'
      · exact ha
      · have hblen : b.length < n := by
          have := congrArg List.length (rfl : a ++ '\n' :: b = a ++ '\n' :: b)
          simp only [List.length_append, List.length_cons] at hs ⊢
          omega
        exact ih b.length hblen b (le_refl _) l hl'
    · rw [splitLines_no_newline hmem] at hl
      rcases List.mem_singleton.mp hl with rfl
      exact hmem

theorem mem_splitLines {a : Char} : ∀ (n : Nat) (s : PyStr), s.length ≤ n →
    ∀ l ∈ splitLines s, a ∈ l → a ∈ s := by
  intro n
  induction n using Nat.strong_induction_on with
  | _ n ih =>
    intro s hs l hl hal
    by_cases hmem : '\n' ∈ s
    · obtain ⟨x, b, rfl, hx⟩ := first_nl_decomp hmem
      rw [splitLines_cons hx] at hl
      rcases List.mem_cons.mp hl with rfl | hl'
      · exact List.mem_append_left _ hal
      · have hblen : b.length < n := by
          simp only [List.length_append, List.length_cons] at hs
          omega
        exact List.mem_append_right _
          (List.mem_cons_of_mem _ (ih b.length hblen b (le_refl _) l hl' hal))
    · rw [splitLines_no_newline hmem] at hl
      rcases List.mem_singleton.mp hl with rfl
      exact hal

theorem joinLines_cons_ne (l : PyStr) {ls : List PyStr} (h : ls ≠ []) :
    joinLines (l :: ls) = l ++ '\n' :: joinLines ls := by
  cases ls with
  | nil => exact absurd rfl h
  | cons x xs => rfl

theorem joinLines_splitLines : ∀ (n : Nat) (s : PyStr), s.length ≤ n →
    joinLines (splitLines s) = s := by
  intro n
  induction n using Nat.strong_induction_on with
  | _ n ih =>
    intro s hs
    by_cases hmem : '\n' ∈ s
    · obtain ⟨a, b, rfl, ha⟩ := first_nl_decomp hmem
      have hblen : b.length < n := by
        simp only [List.length_append, List.length_cons] at hs
        omega
      rw [splitLines_cons ha, joinLines_cons_ne a (splitLines_ne_nil b),
        ih b.length hblen b (le_refl _)]
    · rw [splitLines_no_newline hmem]
      rfl

theorem splitLines_joinLines : ∀ {L : List PyStr}, L ≠ [] →
    (∀ l ∈ L, '\n' ∉ l) → splitLines (joinLines L) = L := by
  intro L
  induction L with
  | nil => intro h _; exact absurd rfl h
  | cons l ls ih =>
    intro _ hnl
    cases ls with
    | nil =>
      show splitLines l = [l]
      exact splitLines_no_newline (hnl l (List.mem_cons_self _ _))
    | cons x xs =>
      rw [joinLines_cons_ne l (by simp), splitLines_cons (hnl l (List.mem_cons_self _ _)),
        ih (by simp) (fun m hm => hnl m (List.mem_cons_of_mem _ hm))]

theorem stripLines_no_newline {s : PyStr} (h : '\n' ∉ s) : stripLines s = pyStrip s := by
  rw [stripLines, splitLines_no_newline h]
  rfl

theorem stripLines_cons {a : PyStr} (ha : '\n' ∉ a) (b : PyStr) :
    stripLines (a ++ '\n' :: b) = pyStrip a ++ '\n' :: stripLines b := by
  rw [stripLines, splitLines_cons ha, List.map_cons,
    joinLines_cons_ne _ (fun hm => splitLines_ne_nil b (List.map_eq_nil.mp hm))]
  rfl

theorem mem_pyStrip {a : Char} {s : PyStr} (h : a ∈ pyStrip s) : a ∈ s := by
  unfold pyStrip pyRStrip pyLStrip at h
  have h1 := (List.dropWhile_sublist _).subset (List.mem_reverse.mp h)
  rw [List.mem_reverse] at h1
  exact (List.dropWhile_sublist _).subset h1

theorem mem_joinLines {a : Char} : ∀ {L : List PyStr},
    a ∈ joinLines L → (∃ l ∈ L, a ∈ l) ∨ a = '\n' := by
  intro L
  induction L with
  | nil => intro h; exact absurd h (List.not_mem_nil _)
  | cons l ls ih =>
    intro h
    cases ls with
    | nil => exact Or.inl ⟨l, List.mem_singleton_self _, h⟩
    | cons x xs =>
      rw [joinLines_cons_ne l (by simp)] at h
      rcases List.mem_append.mp h with h | h
      · exact Or.inl ⟨l, List.mem_cons_self _ _, h⟩
      · rcases List.mem_cons.mp h with rfl | h
        · exact Or.inr rfl
        · rcases ih h with ⟨m, hm, ham⟩ | h
          · exact Or.inl ⟨m, List.mem_cons_of_mem _ hm, ham⟩
          · exact Or.inr h

theorem joinLines_mem_of {a : Char} : ∀ {L : List PyStr} {l : PyStr},
    l ∈ L → a ∈ l → a ∈ joinLines L := by
  intro L
  induction L with
  | nil => intro l hl _; exact absurd hl (List.not_mem_nil _)
  | cons x xs ih =>
    intro l hl hal
    cases xs with
    | nil =>
      rcases List.mem_singleton.mp hl with rfl
      exact hal
    | cons y ys =>
      rw [joinLines_cons_ne x (by simp)]
      rcases List.mem_cons.mp hl with rfl | hl'
      · exact List.mem_append_left _ hal
      · exact List.mem_append_right _ (List.mem_cons_of_mem _ (ih hl' hal))

theorem mem_stripLines {a : Char} {s : PyStr} (h : a ∈ stripLines s) :
    a ∈ s ∨ a = '\n' := by
  rw [stripLines] at h
  rcases mem_joinLines h with ⟨l', hl', hal'⟩ | h
  · obtain ⟨l, hl, rfl⟩ := List.mem_map.mp hl'
    exact Or.inl (mem_splitLines s.length s (le_refl _) l hl (mem_pyStrip hal'))
  · exact Or.inr h

theorem wsedit_stripLines : ∀ (n : Nat) (s : PyStr), s.length ≤ n →
    WsEdit s (stripLines s) := by
  intro n
  induction n using Nat.strong_induction_on with
  | _ n ih =>
    intro s hs
    by_cases hmem : '\n' ∈ s
    · obtain ⟨a, b, rfl, ha⟩ := first_nl_decomp hmem
      have hblen : b.length < n := by
        simp only [List.length_append, List.length_cons] at hs
        omega
      rw [stripLines_cons ha]
      exact wsedit_append (wsedit_pyStrip a)
        (.keep '\n' (ih b.length hblen b (le_refl _)))
    · rw [stripLines_no_newline hmem]
      exact wsedit_pyStrip s

end PySem

namespace PySem

theorem mem_afterLastNl {a : Char} {w : PyStr} (h : a ∈ afterLastNl w) : a ∈ w := by
  unfold afterLastNl at h
  have h1 := (List.takeWhile_sublist _).subset (List.mem_reverse.mp h)
  exact List.mem_reverse.mp h1

theorem afterLastNl_no_nl (w : PyStr) : '\n' ∉ afterLastNl w := by
  intro h
  unfold afterLastNl at h
  have := List.mem_takeWhile_imp (List.mem_reverse.mp h)
  simp at this

theorem takeWhile_append_pos {p : Char → Bool} : ∀ {A : PyStr},
    (∀ a ∈ A, p a = true) → ∀ z : PyStr, (A ++ z).takeWhile p = A ++ z.takeWhile p := by
  intro A
  induction A with
  | nil => intro _ z; rfl
  | cons a A' ih =>
    intro h z
    rw [List.cons_append, List.takeWhile_cons_of_pos (h a (List.mem_cons_self _ _)),
      ih (fun x hx => h x (List.mem_cons_of_mem _ hx)) z, List.cons_append]

theorem afterLastNl_cons_nl {A : PyStr} (hA : '\n' ∉ A) :
    afterLastNl ('\n' :: A) = A := by
  unfold afterLastNl
  have hcond : ∀ a ∈ A.reverse, (fun d => !(d = '\n')) a = true := by
    intro a ha
    have hm : a ∈ A := List.mem_reverse.mp ha
    have hne : ¬ (a = '\n') := fun e => hA (e ▸ hm)
    simpa using hne
  rw [List.reverse_cons, takeWhile_append_pos hcond]
  simp [List.takeWhile_cons]

theorem mem_collapseBlank {a : Char} : ∀ (n : Nat) (s : PyStr), s.length ≤ n →
    a ∈ collapseBlank s → a ∈ s ∨ a = '\n' := by
  intro n
  induction n using Nat.strong_induction_on with
  | _ n ih =>
    intro s hs ha
    match s, hs with
    | [], _ => exact absurd ha (List.not_mem_nil _)
    | c :: rest, hs =>
      rw [collapseBlank_cons] at ha
      simp only [List.length_cons] at hs
      split at ha
      · rename_i hm
        have hlen := collapseBlank_skip_length hm.2
        rcases List.mem_cons.mp ha with rfl | ha'
        · exact Or.inr rfl
        · rcases List.mem_cons.mp ha' with rfl | ha''
          · exact Or.inr rfl
          · rcases ih (n - 1) (by omega) _ (by omega) ha'' with h | h
            · rcases List.mem_append.mp h with h | h
              · exact Or.inl (List.mem_cons_of_mem _
                  ((List.takeWhile_sublist _).subset (mem_afterLastNl h)))
              · exact Or.inl (List.mem_cons_of_mem _ ((List.drop_sublist _ _).subset h))
            · exact Or.inr h
      · rcases List.mem_cons.mp ha with rfl | ha'
        · exact Or.inl (List.mem_cons_self _ _)
        · rcases ih (n - 1) (by omega) rest (by omega) ha' with h | h
          · exact Or.inl (List.mem_cons_of_mem _ h)
          · exact Or.inr h

theorem collapseBlank_append_no_nl : ∀ {A : PyStr}, (∀ x ∈ A, ¬ x = '\n') →
    ∀ r : PyStr, collapseBlank (A ++ r) = A ++ collapseBlank r := by
  intro A
  induction A with
  | nil => intro _ r; rfl
  | cons x A' ih =>
    intro h r
    rw [List.cons_append, collapseBlank_cons,
      if_neg (fun hm => h x (List.mem_cons_self _ _) hm.1),
      ih (fun y hy => h y (List.mem_cons_of_mem _ hy)) r, List.cons_append]

theorem collapseBlank_takeWhile_nil {s : PyStr} (h : s.takeWhile isPySpace = []) :
    (collapseBlank s).takeWhile isPySpace = [] := by
  cases s with
  | nil => rfl
  | cons d r =>
    have hd : isPySpace d = false := by
      by_contra hdd
      rw [List.takeWhile_cons_of_pos (by simpa using hdd)] at h
      exact List.cons_ne_nil _ _ h
    rw [collapseBlank_cons, if_neg (fun hm => by
      rw [hm.1] at hd
      exact absurd hd (by decide))]
    exact List.takeWhile_cons_of_neg (by simp [hd])

theorem takeWhile_dropWhile_nil (p : Char → Bool) (l : PyStr) :
    (l.dropWhile p).takeWhile p = [] := by
  cases hdrop : l.dropWhile p with
  | nil => rfl
  | cons d r =>
    have := List.head?_dropWhile_not p l
    rw [hdrop] at this
    simp only [List.head?_cons, Option.all_some] at this
    exact List.takeWhile_cons_of_neg (by simpa using this)

theorem nlOk_cons_iff {c : Char} {rest : PyStr} :
    nlOk (c :: rest) = true ↔
      (c = '\n' → ('\n' ∉ rest.takeWhile isPySpace ∨
        ((rest.takeWhile isPySpace).head? = some '\n' ∧
          '\n' ∉ (rest.takeWhile isPySpace).drop 1))) ∧ nlOk rest = true := by
  simp only [nlOk, Bool.and_eq_true, decide_eq_true_eq]

theorem nlOk_tail {c : Char} {rest : PyStr} (h : nlOk (c :: rest) = true) :
    nlOk rest = true := (nlOk_cons_iff.mp h).2

theorem nlOk_drop : ∀ (n : Nat) {s : PyStr}, nlOk s = true → nlOk (s.drop n) = true := by
  intro n
  induction n with
  | zero => intro s h; exact h
  | succ m ih =>
    intro s h
    cases s with
    | nil => exact h
    | cons c rest => exact ih (nlOk_tail h)

theorem takeWhile_take_comm (p : Char → Bool) : ∀ (l : PyStr) (n : Nat),
    (l.take n).takeWhile p = (l.takeWhile p).take n := by
  intro l
  induction l with
  | nil => intro n; simp
  | cons c r ih =>
    intro n
    cases n with
    | zero => simp
    | succ m =>
      rw [List.take_cons_succ]
      by_cases hc : p c = true
      · rw [List.takeWhile_cons_of_pos hc, List.takeWhile_cons_of_pos hc,
          List.take_cons_succ, ih]
      · rw [List.takeWhile_cons_of_neg (by simpa using hc),
          List.takeWhile_cons_of_neg (by simpa using hc)]
        simp

theorem nlOk_take : ∀ {s : PyStr} (n : Nat), nlOk s = true → nlOk (s.take n) = true := by
  intro s
  induction s with
  | nil => intro n _; simp [nlOk]
  | cons c rest ih =>
    intro n h
    cases n with
    | zero => rfl
    | succ m =>
      rw [List.take_cons_succ]
      obtain ⟨h1, h2⟩ := nlOk_cons_iff.mp h
      refine nlOk_cons_iff.mpr ⟨?_, ih m h2⟩
      intro hc
      rw [takeWhile_take_comm]
      rcases h1 hc with hh | ⟨hhd, htl⟩
      · exact Or.inl (fun hm => hh ((List.take_sublist _ _).subset hm))
      · cases m with
        | zero => exact Or.inl (by simp)
        | succ k =>
          cases hW : (rest.takeWhile isPySpace) with
          | nil => rw [hW] at hhd; exact absurd hhd (by simp)
          | cons w₀ W₁ =>
            rw [hW] at hhd htl
            have hw₀ : w₀ = '\n' := by simpa using hhd
            subst hw₀
            refine Or.inr ⟨by rw [List.take_cons_succ]; rfl, ?_⟩
            rw [List.take_cons_succ]
            simp only [List.drop_one, List.tail_cons] at htl ⊢
            exact fun hm => htl ((List.take_sublist _ _).subset hm)

theorem nlOk_append_no_nl : ∀ {x : PyStr}, '\n' ∉ x → ∀ {y : PyStr},
    nlOk y = true → nlOk (x ++ y) = true := by
  intro x
  induction x with
  | nil => intro _ y h; exact h
  | cons c x' ih =>
    intro hx y hy
    refine nlOk_cons_iff.mpr ⟨?_, ih (fun hm => hx (List.mem_cons_of_mem _ hm)) hy⟩
    intro hc
    exact absurd (hc ▸ List.mem_cons_self _ _ : '\n' ∈ c :: x') hx

theorem nlOk_of_no_nl : ∀ {s : PyStr}, '\n' ∉ s → nlOk s = true := by
  intro s
  induction s with
  | nil => intro _; rfl
  | cons c rest ih =>
    intro h
    refine nlOk_cons_iff.mpr ⟨?_, ih (fun hm => h (List.mem_cons_of_mem _ hm))⟩
    intro hc
    exact absurd (hc ▸ List.mem_cons_self _ _ : '\n' ∈ c :: rest) h

end PySem

namespace PySem

theorem collapseBlank_nlOk : ∀ (n : Nat) (s : PyStr), s.length ≤ n →
    nlOk (collapseBlank s) = true := by
  intro n
  induction n using Nat.strong_induction_on with
  | _ n ih =>
    intro s hs
    match s, hs with
    | [], _ => rfl
    | c :: rest, hs =>
      simp only [List.length_cons] at hs
      rw [collapseBlank_cons]
      split
      · rename_i hm
        obtain ⟨hc, hw⟩ := hm
        have hAws : ∀ x ∈ afterLastNl (rest.takeWhile isPySpace), isPySpace x = true :=
          fun x hx => List.mem_takeWhile_imp (mem_afterLastNl hx)
        have hAn : '\n' ∉ afterLastNl (rest.takeWhile isPySpace) := afterLastNl_no_nl _
        have hXeq : collapseBlank (afterLastNl (rest.takeWhile isPySpace)
              ++ rest.drop (rest.takeWhile isPySpace).length)
            = afterLastNl (rest.takeWhile isPySpace)
              ++ collapseBlank (rest.drop (rest.takeWhile isPySpace).length) :=
          collapseBlank_append_no_nl (fun x hx e => hAn (e ▸ hx)) _
        have htw : (collapseBlank (rest.drop
            (rest.takeWhile isPySpace).length)).takeWhile isPySpace = [] := by
          rw [drop_takeWhile_length]
          exact collapseBlank_takeWhile_nil (takeWhile_dropWhile_nil _ _)
        have hWX : (collapseBlank (afterLastNl (rest.takeWhile isPySpace)
              ++ rest.drop (rest.takeWhile isPySpace).length)).takeWhile isPySpace
            = afterLastNl (rest.takeWhile isPySpace) := by
          rw [hXeq, takeWhile_append_pos hAws, htw, List.append_nil]
        refine nlOk_cons_iff.mpr ⟨?_, ?_⟩
        · intro _
          right
          rw [List.takeWhile_cons_of_pos (by decide), hWX]
          exact ⟨rfl, by simpa using hAn⟩
        · refine nlOk_cons_iff.mpr ⟨?_, ?_⟩
          · intro _
            left
            rw [hWX]
            exact hAn
          · rw [hXeq]
            exact nlOk_append_no_nl hAn (ih (n - 1) (by omega) _
              (by simp only [List.length_drop]; omega))
      · rename_i hnm
        refine nlOk_cons_iff.mpr ⟨?_, ih (n - 1) (by omega) rest (by omega)⟩
        intro hc
        subst hc
        have hw : '\n' ∉ rest.takeWhile isPySpace := fun hin => hnm ⟨rfl, hin⟩
        left
        have hdecomp : rest = rest.takeWhile isPySpace
            ++ rest.drop (rest.takeWhile isPySpace).length := by
          rw [drop_takeWhile_length]
          exact (List.takeWhile_append_dropWhile _ _).symm
        have hYeq : collapseBlank rest = rest.takeWhile isPySpace
            ++ collapseBlank (rest.drop (rest.takeWhile isPySpace).length) := by
          conv_lhs => rw [hdecomp]
          exact collapseBlank_append_no_nl (fun x hx e => hw (e ▸ hx)) _
        have htw : (collapseBlank (rest.drop
            (rest.takeWhile isPySpace).length)).takeWhile isPySpace = [] := by
          rw [drop_takeWhile_length]
          exact collapseBlank_takeWhile_nil (takeWhile_dropWhile_nil _ _)
        rw [hYeq, takeWhile_append_pos (fun x hx => List.mem_takeWhile_imp hx), htw,
          List.append_nil]
        exact hw

theorem nlOk_fix : ∀ (n : Nat) (s : PyStr), s.length ≤ n → nlOk s = true →
    collapseBlank s = s := by
  intro n
  induction n using Nat.strong_induction_on with
  | _ n ih =>
    intro s hs hok
    match s, hs with
    | [], _ => rfl
    | c :: rest, hs =>
      simp only [List.length_cons] at hs
      rw [collapseBlank_cons]
      split
      · rename_i hm
        obtain ⟨hc, hw⟩ := hm
        subst hc
        obtain ⟨h1, h2⟩ := nlOk_cons_iff.mp hok
        rcases h1 rfl with hh | ⟨hhd, htl⟩
        · exact absurd hw hh
        · cases hW : rest.takeWhile isPySpace with
          | nil => rw [hW] at hhd; exact absurd hhd (by simp)
          | cons w₀ W₁ =>
            rw [hW] at hhd htl
            have hw₀ : w₀ = '\n' := by simpa using hhd
            subst hw₀
            simp only [List.drop_one, List.tail_cons] at htl
            have hdecomp : rest = rest.takeWhile isPySpace
                ++ rest.drop (rest.takeWhile isPySpace).length := by
              rw [drop_takeWhile_length]
              exact (List.takeWhile_append_dropWhile _ _).symm
            rw [hW] at hdecomp
            rw [afterLastNl_cons_nl htl]
            have harg : rest.drop 1
                = W₁ ++ rest.drop ('\n' :: W₁ : PyStr).length := by
              conv_lhs => rw [hdecomp]
              rfl
            have hnl : nlOk (W₁ ++ rest.drop ('\n' :: W₁ : PyStr).length) = true := by
              rw [← harg]
              exact nlOk_drop 1 h2
            have hlen : (W₁ ++ rest.drop ('\n' :: W₁ : PyStr).length).length ≤ n - 1 := by
              have := congrArg List.length harg
              simp only [List.length_drop] at this
              omega
            rw [ih (n - 1) (by omega) _ hlen hnl]
            conv_rhs => rw [hdecomp]
            rfl
      · rw [ih (n - 1) (by omega) rest (by omega) (nlOk_tail hok)]

end PySem

namespace PySem

theorem pyStrip_head_aux {y : PyStr} {c : Char} {t : PyStr}
    (h : pyStrip y = c :: t) : isPySpace c = false :=
  pyStrip_fixed_head (pyStrip_idem y) h

theorem takeWhile_ws_stripLines : ∀ {s : PyStr},
    '\n' ∉ s.takeWhile isPySpace → '\n' ∉ (stripLines s).takeWhile isPySpace := by
  intro s h
  by_cases hmem : '\n' ∈ s
  · obtain ⟨a, b, rfl, ha⟩ := first_nl_decomp hmem
    rw [stripLines_cons ha]
    have hnws : ∃ c ∈ a, isPySpace c = false := by
      by_contra hall
      push_neg at hall
      have hws : ∀ c ∈ a, isPySpace c = true := by
        intro c hc
        cases hb : isPySpace c
        · exact absurd hb (hall c hc)
        · rfl
      rw [takeWhile_append_pos hws] at h
      apply h
      apply List.mem_append_right
      rw [List.takeWhile_cons_of_pos (by decide)]
      exact List.mem_cons_self _ _
    obtain ⟨c, hc, hcw⟩ := hnws
    have hne : pyStrip a ≠ [] := by
      intro hnil
      rw [pyStrip_nil_iff] at hnil
      rw [hnil c hc] at hcw
      exact absurd hcw (by simp)
    obtain ⟨d, t, hdt⟩ := List.exists_cons_of_ne_nil hne
    have hd : isPySpace d = false := pyStrip_head_aux hdt
    rw [hdt, List.cons_append, List.takeWhile_cons_of_neg (by simp [hd])]
    exact List.not_mem_nil _
  · rw [stripLines_no_newline hmem]
    intro hin
    exact hmem (mem_pyStrip ((List.takeWhile_sublist _).subset hin))

theorem nlOk_stripLines : ∀ (n : Nat) (s : PyStr), s.length ≤ n →
    nlOk s = true → nlOk (stripLines s) = true := by
  intro n
  induction n using Nat.strong_induction_on with
  | _ n ih =>
    intro s hs hok
    by_cases hmem : '\n' ∈ s
    · obtain ⟨a, b, rfl, ha⟩ := first_nl_decomp hmem
      have hblen : b.length < n := by
        simp only [List.length_append, List.length_cons] at hs
        omega
      rw [stripLines_cons ha]
      have hb : nlOk ('\n' :: b) = true := by
        have hd := nlOk_drop a.length hok
        rwa [List.drop_left] at hd
      obtain ⟨hb1, hb2⟩ := nlOk_cons_iff.mp hb
      refine nlOk_append_no_nl (fun hin => ha (mem_pyStrip hin)) ?_
      refine nlOk_cons_iff.mpr ⟨?_, ih b.length hblen b (le_refl _) hb2⟩
      intro _
      rcases hb1 rfl with hh | ⟨hhd, htl⟩
      · exact Or.inl (takeWhile_ws_stripLines hh)
      · cases b with
        | nil => exact absurd hhd (by simp)
        | cons b₀ b₂ =>
          have hb₀ : b₀ = '\n' := by
            by_cases hws : isPySpace b₀ = true
            · rw [List.takeWhile_cons_of_pos hws] at hhd
              simpa using hhd
            · rw [List.takeWhile_cons_of_neg (by simp [hws])] at hhd
              exact absurd hhd (by simp)
          subst hb₀
          rw [List.takeWhile_cons_of_pos (by decide), List.drop_one,
            List.tail_cons] at htl
          have hsl : stripLines ('\n' :: b₂) = '\n' :: stripLines b₂ := by
            have hsc := stripLines_cons (a := []) (List.not_mem_nil _) b₂
            simpa using hsc
          rw [hsl]
          right
          rw [List.takeWhile_cons_of_pos (by decide)]
          refine ⟨rfl, ?_⟩
          rw [List.drop_one, List.tail_cons]
          exact takeWhile_ws_stripLines htl
    · rw [stripLines_no_newline hmem]
      exact nlOk_of_no_nl (fun hin => hmem (mem_pyStrip hin))

theorem nlOk_pyLStrip {s : PyStr} (h : nlOk s = true) : nlOk (pyLStrip s) = true := by
  have hd : pyLStrip s = s.drop (s.takeWhile isPySpace).length := by
    rw [drop_takeWhile_length]
    rfl
  rw [hd]
  exact nlOk_drop _ h

theorem nlOk_pyRStrip {s : PyStr} (h : nlOk s = true) : nlOk (pyRStrip s) = true := by
  have hpre : pyRStrip s <+: s := by
    rw [pyRStrip_eq_rdropWhile]
    exact List.rdropWhile_prefix _ _
  rw [List.prefix_iff_eq_take.mp hpre]
  exact nlOk_take _ h

theorem nlOk_pyStrip {s : PyStr} (h : nlOk s = true) : nlOk (pyStrip s) = true :=
  nlOk_pyRStrip (nlOk_pyLStrip h)

end PySem

namespace PySem

theorem pyRStrip_of_pyStrip_fixed {x : PyStr} (h : pyStrip x = x) : pyRStrip x = x := by
  conv_lhs => rw [← h]
  show pyRStrip (pyRStrip (pyLStrip x)) = x
  rw [pyRStrip_idem]
  exact h

theorem pyLStrip_joinLines : ∀ {L : List PyStr}, (∀ l ∈ L, pyStrip l = l) →
    pyLStrip (joinLines L) = joinLines (L.dropWhile (fun l => l.isEmpty)) := by
  intro L
  induction L with
  | nil => intro _; rfl
  | cons l ls ih =>
    intro h
    by_cases hl : l = []
    · subst hl
      cases ls with
      | nil => rfl
      | cons x xs =>
        rw [List.dropWhile_cons_of_pos (by simp), joinLines_cons_ne _ (by simp),
          List.nil_append, pyLStrip_cons_ws (by decide),
          ih (fun m hm => h m (List.mem_cons_of_mem _ hm))]
    · obtain ⟨c, t, rfl⟩ := List.exists_cons_of_ne_nil hl
      have hc : isPySpace c = false :=
        pyStrip_fixed_head (h _ (List.mem_cons_self _ _)) rfl
      rw [List.dropWhile_cons_of_neg (by simp)]
      cases ls with
      | nil => exact pyLStrip_cons_not_ws hc t
      | cons x xs =>
        rw [joinLines_cons_ne _ (by simp), List.cons_append]
        exact pyLStrip_cons_not_ws hc _

theorem mem_trimEnd : ∀ {L : List PyStr} {l : PyStr}, l ∈ trimEnd L → l ∈ L := by
  intro L
  induction L with
  | nil => intro l h; exact absurd h (List.not_mem_nil _)
  | cons x rest ih =>
    intro l h
    rw [trimEnd] at h
    split at h
    · split at h
      · exact absurd h (List.not_mem_nil _)
      · rcases List.mem_singleton.mp h with rfl
        exact List.mem_cons_self _ _
    · rcases List.mem_cons.mp h with rfl | h'
      · exact List.mem_cons_self _ _
      · exact List.mem_cons_of_mem _ (ih h')

theorem trimEnd_nil_iff : ∀ {L : List PyStr}, trimEnd L = [] ↔ ∀ l ∈ L, l = [] := by
  intro L
  induction L with
  | nil => simp [trimEnd]
  | cons x rest ih =>
    rw [trimEnd]
    constructor
    · intro h
      split at h
      · rename_i htr
        split at h
        · rename_i hx
          intro l hl
          rcases List.mem_cons.mp hl with rfl | hl'
          · exact hx
          · exact ih.mp htr l hl'
        · exact absurd h (List.cons_ne_nil _ _)
      · exact absurd h (List.cons_ne_nil _ _)
    · intro h
      have htr : trimEnd rest = [] := ih.mpr (fun l hl => h l (List.mem_cons_of_mem _ hl))
      rw [if_pos htr, if_pos (h x (List.mem_cons_self _ _))]

theorem joinLines_all_nil {L : List PyStr} (h : ∀ l ∈ L, l = []) :
    ∀ a ∈ joinLines L, a = '\n' := by
  intro a ha
  rcases mem_joinLines ha with ⟨l, hl, hal⟩ | ha'
  · rw [h l hl] at hal
    exact absurd hal (List.not_mem_nil _)
  · exact ha'

theorem pyRStrip_joinLines : ∀ {L : List PyStr}, (∀ l ∈ L, pyStrip l = l) →
    pyRStrip (joinLines L) = joinLines (trimEnd L) := by
  intro L
  induction L with
  | nil => intro _; rfl
  | cons x rest ih =>
    intro h
    have hx : pyRStrip x = x := pyRStrip_of_pyStrip_fixed (h x (List.mem_cons_self _ _))
    by_cases htr : trimEnd rest = []
    · have hall : ∀ l ∈ rest, l = [] := trimEnd_nil_iff.mp htr
      have hRHS : trimEnd (x :: rest) = if x = [] then [] else [x] := by
        rw [trimEnd, if_pos htr]
      cases rest with
      | nil =>
        rw [hRHS]
        split
        · rename_i hxe
          subst hxe
          rfl
        · exact hx
      | cons y ys =>
        rw [joinLines_cons_ne _ (by simp)]
        have hws : ∀ c ∈ ('\n' :: joinLines (y :: ys) : PyStr), isPySpace c = true := by
          intro c hc
          rcases List.mem_cons.mp hc with rfl | hc'
          · decide
          · rw [joinLines_all_nil hall c hc']
            decide
        rw [pyRStrip_append_allws hws x, hx, hRHS]
        split
        · rename_i hxe
          subst hxe
          rfl
        · rfl
    · have hne : ∃ l ∈ rest, l ≠ [] := by
        by_contra hcon
        push_neg at hcon
        exact htr (trimEnd_nil_iff.mpr hcon)
      obtain ⟨l, hl, hlne⟩ := hne
      obtain ⟨c, t, hlct⟩ := List.exists_cons_of_ne_nil hlne
      have hc : isPySpace c = false :=
        pyStrip_fixed_head (h l (List.mem_cons_of_mem _ hl)) hlct
      have hcj : c ∈ joinLines rest :=
        joinLines_mem_of hl (by rw [hlct]; exact List.mem_cons_self _ _)
      cases rest with
      | nil => exact absurd hl (List.not_mem_nil _)
      | cons y ys =>
        rw [joinLines_cons_ne _ (by simp),
          pyRStrip_append_not_allws (List.mem_cons_of_mem _ hcj) hc x,
          show ('\n' :: joinLines (y :: ys) : PyStr) = ['\n'] ++ joinLines (y :: ys) from rfl,
          pyRStrip_append_not_allws hcj hc ['\n'],
          ih (fun m hm => h m (List.mem_cons_of_mem _ hm)),
          show trimEnd (x :: y :: ys) = x :: trimEnd (y :: ys) from by
            rw [trimEnd, if_neg htr],
          joinLines_cons_ne _ htr]
        simp

theorem stripLines_pyStrip_joinLines {L : List PyStr}
    (hfix : ∀ l ∈ L, pyStrip l = l) (hnl : ∀ l ∈ L, '\n' ∉ l) :
    stripLines (pyStrip (joinLines L)) = pyStrip (joinLines L) := by
  have hfix1 : ∀ l ∈ L.dropWhile (fun l => l.isEmpty), pyStrip l = l :=
    fun l hl => hfix l ((List.dropWhile_sublist _).subset hl)
  have h2 : pyStrip (joinLines L)
      = joinLines (trimEnd (L.dropWhile (fun l => l.isEmpty))) := by
    show pyRStrip (pyLStrip (joinLines L)) = _
    rw [pyLStrip_joinLines hfix, pyRStrip_joinLines hfix1]
  have hsub : ∀ l ∈ trimEnd (L.dropWhile (fun l => l.isEmpty)), l ∈ L :=
    fun l hl => (List.dropWhile_sublist _).subset (mem_trimEnd hl)
  rw [h2]
  by_cases hemp : trimEnd (L.dropWhile (fun l => l.isEmpty)) = []
  · rw [hemp]
    rfl
  · rw [stripLines, splitLines_joinLines hemp (fun l hl => hnl l (hsub l hl)),
      List.map_congr_left (fun l hl => hfix l (hsub l hl))]
    simp

end PySem

namespace PySem

theorem wsedit_clean_chain (y : PyStr) :
    WsEdit y (pyStrip (stripLines (collapseBlank (normNewlines y)))) :=
  wsedit_trans (wsedit_normNewlines y)
    (wsedit_trans (wsedit_collapseBlank' _)
      (wsedit_trans (wsedit_stripLines _ _ (le_refl _)) (wsedit_pyStrip _)))

theorem splitter_no_cr (t : PyStr) :
    '\x0d' ∉ pyStrip (stripLines (collapseBlank (normNewlines (stripTags t)))) := by
  intro hin
  have h1 := mem_pyStrip hin
  rcases mem_stripLines h1 with h2 | h2
  · rcases mem_collapseBlank _ _ (le_refl _) h2 with h3 | h3
    · exact normNewlines_no_cr _ h3
    · exact absurd h3 (by decide)
  · exact absurd h2 (by decide)

end PySem

namespace TextSplitter

theorem splitter_clean_text_idem (t : PyStr) :
    clean_text (clean_text t) = clean_text t := by
  have htag : tagOk (clean_text t) = true :=
    wsedit_tagOk (wsedit_clean_chain (stripTags t)) (stripTags_tagOk t)
  have hcr : '\x0d' ∉ clean_text t := splitter_no_cr t
  have hnl : nlOk (clean_text t) = true :=
    nlOk_pyStrip (nlOk_stripLines _ _ (le_refl _) (collapseBlank_nlOk _ _ (le_refl _)))
  have hfixL : ∀ l ∈ (splitLines (collapseBlank (normNewlines (stripTags t)))).map pyStrip,
      pyStrip l = l := by
    intro l hl
    obtain ⟨m, hm, rfl⟩ := List.mem_map.mp hl
    exact pyStrip_idem m
  have hnlL : ∀ l ∈ (splitLines (collapseBlank (normNewlines (stripTags t)))).map pyStrip,
      '\n' ∉ l := by
    intro l hl
    obtain ⟨m, hm, rfl⟩ := List.mem_map.mp hl
    exact fun hin => splitLines_no_nl _ _ (le_refl _) m hm (mem_pyStrip hin)
  have hSL : stripLines (clean_text t) = clean_text t :=
    stripLines_pyStrip_joinLines hfixL hnlL
  show pyStrip (stripLines (collapseBlank (normNewlines (stripTags (clean_text t)))))
      = clean_text t
  rw [tagOk_fix htag, normNewlines_fix hcr, nlOk_fix _ _ (le_refl _) hnl, hSL]
  exact pyStrip_idem (stripLines (collapseBlank (normNewlines (stripTags t))))

end TextSplitter

namespace PySem

theorem mem_collapseWsGo {a : Char} : ∀ {b : Bool} {s : PyStr},
    a ∈ collapseWsGo b s → a ∈ s ∨ a = ' ' := by
  intro b s
  induction b, s using collapseWsGo.induct with
  | case1 b => intro h; exact absurd h (List.not_mem_nil _)
  | case2 c rest hws ih =>
    have hg : collapseWsGo true (c :: rest) = collapseWsGo true rest := by
      simp [collapseWsGo, hws]
    rw [hg]
    intro h
    rcases ih h with h' | h'
    · exact Or.inl (List.mem_cons_of_mem _ h')
    · exact Or.inr h'
  | case3 b c rest hws hb ih =>
    have hb' : b = false := by
      cases b
      · rfl
      · exact absurd rfl hb
    subst hb'
    have hg : collapseWsGo false (c :: rest) = ' ' :: collapseWsGo true rest := by
      simp [collapseWsGo, hws]
    rw [hg]
    intro h
    rcases List.mem_cons.mp h with rfl | h'
    · exact Or.inr rfl
    · rcases ih h' with h'' | h''
      · exact Or.inl (List.mem_cons_of_mem _ h'')
      · exact Or.inr h''
  | case4 b c rest hws ih =>
    have hg : collapseWsGo b (c :: rest) = c :: collapseWsGo false rest := by
      simp [collapseWsGo, hws]
    rw [hg]
    intro h
    rcases List.mem_cons.mp h with rfl | h'
    · exact Or.inl (List.mem_cons_self _ _)
    · rcases ih h' with h'' | h''
      · exact Or.inl (List.mem_cons_of_mem _ h'')
      · exact Or.inr h''

theorem head_collapseWsGo_true {d : Char} : ∀ {s : PyStr},
    (collapseWsGo true s).head? = some d → isPySpace d = false := by
  intro s
  induction s with
  | nil => intro h; exact absurd h (by simp [collapseWsGo])
  | cons c r ih =>
    intro h
    by_cases hws : isPySpace c = true
    · rw [show collapseWsGo true (c :: r) = collapseWsGo true r from by
        simp [collapseWsGo, hws]] at h
      exact ih h
    · rw [show collapseWsGo true (c :: r) = c :: collapseWsGo false r from by
        simp [collapseWsGo, hws]] at h
      have hd : d = c := by simpa using h.symm
      subst hd
      simpa using hws

theorem wsOk_cons_iff {c : Char} {rest : PyStr} :
    wsOk (c :: rest) = true ↔
      (isPySpace c = true → (c = ' ' ∧ rest.head?.all (fun d => !isPySpace d) = true))
        ∧ wsOk rest = true := by
  simp only [wsOk, Bool.and_eq_true, decide_eq_true_eq]

theorem wsOk_collapseWsGo : ∀ (b : Bool) (s : PyStr), wsOk (collapseWsGo b s) = true := by
  intro b s
  induction b, s using collapseWsGo.induct with
  | case1 b => rfl
  | case2 c rest hws ih =>
    rw [show collapseWsGo true (c :: rest) = collapseWsGo true rest from by
      simp [collapseWsGo, hws]]
    exact ih
  | case3 b c rest hws hb ih =>
    have hb' : b = false := by
      cases b
      · rfl
      · exact absurd rfl hb
    subst hb'
    rw [show collapseWsGo false (c :: rest) = ' ' :: collapseWsGo true rest from by
      simp [collapseWsGo, hws]]
    refine wsOk_cons_iff.mpr ⟨fun _ => ⟨rfl, ?_⟩, ih⟩
    cases hh : (collapseWsGo true rest).head? with
    | none => rfl
    | some d =>
      have := head_collapseWsGo_true hh
      simp [this]
  | case4 b c rest hws ih =>
    rw [show collapseWsGo b (c :: rest) = c :: collapseWsGo false rest from by
      simp [collapseWsGo, hws]]
    refine wsOk_cons_iff.mpr ⟨fun habs => absurd habs (by simp [hws]), ih⟩

theorem wsOk_tail {c : Char} {rest : PyStr} (h : wsOk (c :: rest) = true) :
    wsOk rest = true := (wsOk_cons_iff.mp h).2

theorem wsOk_drop : ∀ (n : Nat) {s : PyStr}, wsOk s = true → wsOk (s.drop n) = true := by
  intro n
  induction n with
  | zero => intro s h; exact h
  | succ m ih =>
    intro s h
    cases s with
    | nil => exact h
    | cons c rest => exact ih (wsOk_tail h)

theorem wsOk_take : ∀ {s : PyStr} (n : Nat), wsOk s = true → wsOk (s.take n) = true := by
  intro s
  induction s with
  | nil => intro n _; simp [wsOk]
  | cons c rest ih =>
    intro n h
    cases n with
    | zero => rfl
    | succ m =>
      rw [List.take_cons_succ]
      obtain ⟨h1, h2⟩ := wsOk_cons_iff.mp h
      refine wsOk_cons_iff.mpr ⟨?_, ih m h2⟩
      intro hws
      obtain ⟨hc, hhd⟩ := h1 hws
      refine ⟨hc, ?_⟩
      cases m with
      | zero => rfl
      | succ k =>
        cases rest with
        | nil => rfl
        | cons d r => simpa using hhd

theorem wsOk_fix : ∀ (n : Nat) (s : PyStr), s.length ≤ n → wsOk s = true →
    collapseWsGo false s = s := by
  intro n
  induction n using Nat.strong_induction_on with
  | _ n ih =>
    intro s hs hok
    match s, hs with
    | [], _ => rfl
    | c :: rest, hs =>
      simp only [List.length_cons] at hs
      by_cases hws : isPySpace c = true
      · obtain ⟨h1, h2⟩ := wsOk_cons_iff.mp hok
        obtain ⟨hc, hhd⟩ := h1 hws
        subst hc
        have hsp : isPySpace ' ' = true := by decide
        rw [show collapseWsGo false (' ' :: rest) = ' ' :: collapseWsGo true rest from by
          simp [collapseWsGo, hsp]]
        cases rest with
        | nil => rfl
        | cons d r =>
          have hd : isPySpace d = false := by simpa using hhd
          have hIH : collapseWsGo false (d :: r) = d :: r :=
            ih (n - 1) (by omega) _ (by simp only [List.length_cons] at hs ⊢; omega) h2
          rw [show collapseWsGo true (d :: r) = d :: collapseWsGo false r from by
              simp [collapseWsGo, hd],
            show (d : Char) :: collapseWsGo false r = collapseWsGo false (d :: r) from by
              simp [collapseWsGo, hd],
            hIH]
      · rw [show collapseWsGo false (c :: rest) = c :: collapseWsGo false rest from by
          simp [collapseWsGo, hws],
          ih (n - 1) (by omega) rest (by omega) (wsOk_tail hok)]

theorem wsOk_pyLStrip {s : PyStr} (h : wsOk s = true) : wsOk (pyLStrip s) = true := by
  have hd : pyLStrip s = s.drop (s.takeWhile isPySpace).length := by
    rw [drop_takeWhile_length]
    rfl
  rw [hd]
  exact wsOk_drop _ h

theorem wsOk_pyRStrip {s : PyStr} (h : wsOk s = true) : wsOk (pyRStrip s) = true := by
  have hpre : pyRStrip s <+: s := by
    rw [pyRStrip_eq_rdropWhile]
    exact List.rdropWhile_prefix _ _
  rw [List.prefix_iff_eq_take.mp hpre]
  exact wsOk_take _ h

theorem wsOk_pyStrip {s : PyStr} (h : wsOk s = true) : wsOk (pyStrip s) = true :=
  wsOk_pyRStrip (wsOk_pyLStrip h)

theorem removeCtrl_eq_self {s : PyStr} (h : ∀ c ∈ s, isCtrl c = false) :
    removeCtrl s = s := by
  unfold removeCtrl
  induction s with
  | nil => rfl
  | cons c rest ih =>
    rw [List.filter_cons_of_pos (by simp [h c (List.mem_cons_self _ _)]),
      ih (fun d hd => h d (List.mem_cons_of_mem _ hd))]

end PySem

namespace TextEmbedder

theorem embedder_clean_text_fixed {y : PyStr} (htag : tagOk y = true)
    (hws : wsOk y = true) (hctrl : ∀ c ∈ y, isCtrl c = false)
    (hstrip : pyStrip y = y) : clean_text y = y := by
  by_cases hy : y = []
  · subst hy
    rfl
  · show (if y = [] then [] else pyStrip (removeCtrl (collapseWs (stripTags y)))) = y
    rw [if_neg hy, tagOk_fix htag,
      show collapseWs y = y from wsOk_fix _ _ (le_refl _) hws,
      removeCtrl_eq_self hctrl, hstrip]

theorem embedder_clean_text_idem_ctrl_free {t : PyStr}
    (h : ∀ c ∈ t, isCtrl c = false) :
    clean_text (clean_text t) = clean_text t := by
  by_cases ht : t = []
  · subst ht
    rfl
  · have hrc : removeCtrl (collapseWs (stripTags t)) = collapseWs (stripTags t) := by
      apply removeCtrl_eq_self
      intro c hc
      rcases mem_collapseWsGo hc with hc' | rfl
      · exact h c (mem_stripTags hc')
      · decide
    have hu : clean_text t = pyStrip (collapseWs (stripTags t)) := by
      show (if t = [] then [] else pyStrip (removeCtrl (collapseWs (stripTags t)))) = _
      rw [if_neg ht, hrc]
    apply embedder_clean_text_fixed
    · rw [hu]
      exact wsedit_tagOk (wsedit_trans (wsedit_collapseWs _) (wsedit_pyStrip _))
        (stripTags_tagOk t)
    · rw [hu]
      exact wsOk_pyStrip (wsOk_collapseWsGo false _)
    · intro c hc
      rw [hu] at hc
      rcases mem_collapseWsGo (mem_pyStrip hc) with hc' | rfl
      · exact h c (mem_stripTags hc')
      · decide
    · rw [hu]
      exact pyStrip_idem _

end TextEmbedder

/-- C7 counterexample: the embedder's normalization path is NOT idempotent.
Control characters are removed only after whitespace collapsing, so removing
them can create a new multi-space run that a second pass collapses:
cleaning `"a \x00 b"` yields `"a  b"` (two spaces), and cleaning that again
yields `"a b"`. -/
theorem C7_counterexample :
    TextEmbedder.clean_text (TextEmbedder.clean_text ['a', ' ', '\x00', ' ', 'b'])
      ≠ TextEmbedder.clean_text ['a', ' ', '\x00', ' ', 'b'] := by
  decide

/-- C7 (amended): the splitter's line-aware cleaning
(`TextSplitter._clean_text`) is idempotent on every input, and the embedder's
whitespace-collapsing cleaning (`TextEmbedder._clean_text`) is idempotent on
every input free of the control characters it strips (on inputs containing
such control characters it can fail to be idempotent, as
`C7_counterexample` shows). -/
theorem C7_amended :
    (∀ t : PyStr, TextSplitter.clean_text (TextSplitter.clean_text t)
        = TextSplitter.clean_text t) ∧
    (∀ t : PyStr, (∀ c ∈ t, isCtrl c = false) →
      TextEmbedder.clean_text (TextEmbedder.clean_text t) = TextEmbedder.clean_text t) :=
  ⟨TextSplitter.splitter_clean_text_idem,
   fun _ h => TextEmbedder.embedder_clean_text_idem_ctrl_free h⟩

/-- C7 witness: the amended idempotence at concrete inputs, the control-free
hypothesis discharged by computation. -/
theorem C7_amended_witness :
    TextSplitter.clean_text (TextSplitter.clean_text
        ['<', 'a', '>', 'x', '\n', '\n', '\n', ' ', 'y', ' '])
      = TextSplitter.clean_text ['<', 'a', '>', 'x', '\n', '\n', '\n', ' ', 'y', ' '] ∧
    ((∀ c ∈ (['a', ' ', ' ', 'b'] : PyStr), isCtrl c = false) ∧
      TextEmbedder.clean_text (TextEmbedder.clean_text ['a', ' ', ' ', 'b'])
        = TextEmbedder.clean_text ['a', ' ', ' ', 'b']) :=
  ⟨C7_amended.1 _, by decide, C7_amended.2 ['a', ' ', ' ', 'b'] (by decide)⟩
